import Mathlib

/-
Verification development for the drg-modio-index synchronization and
archive-indexing pipeline (src/main.rs).

The Rust code is shallowly embedded:
  * Rust String / &str / OsStr values become Lean String (a structure over
    List Char); character-level work happens on the data field.
  * std::path::Path operations (push, strip_prefix, extension, file_stem,
    file_name) are modelled at the component level, mirroring the component
    parser of std::path on Unix (no prefixes, separator '/').  to_str never
    fails in this model because every Lean String is valid text; the
    AssetPathError variant is kept for completeness but is unreachable.
  * Fallible Rust code returns Except / Option; a Rust panic (the unwrap on
    strip_suffix) is modelled as the crash variant of RunError, which
    propagates to the top exactly as a panic aborts the process.
  * The sqlite tables become lists of row structures; each SQL statement of
    the source becomes a pure function on the Store.  A transaction that is
    dropped on error never yields a state, because update_mod returns
    Except with no state on the error side.
  * The bounded-parallel reconciler is sequentialized in list order: every
    per-file delete+insert transaction is serialized in the source as well,
    and no claim proved here depends on completion order.
-/

namespace DrgIndex

abbrev Str := List Char

/-! ## Path components (model of std::path on Unix) -/

/-- A path component, as produced by the component parser of std::path
(Unix flavour: no Windows prefixes). -/
inductive PathComp where
  | rootDir : PathComp
  | curDir : PathComp
  | parentDir : PathComp
  | normal : Str → PathComp
deriving DecidableEq, Repr

/-- Split a character list on the separator '/'.  Mirrors the chunking the
std::path component parser performs; "a/b" gives [a, b], "" gives [[]],
"/a" gives [[], [a]]. -/
def splitSlash : Str → List Str
  | [] => [[]]
  | c :: cs =>
    if c = '/' then [] :: splitSlash cs
    else
      match splitSlash cs with
      | [] => [[c]]
      | h :: t => (c :: h) :: t

/-- Join chunks with the separator '/', inverse of splitSlash on canonical
chunk lists. -/
def joinSlash : List Str → Str
  | [] => []
  | [x] => x
  | x :: xs => x ++ '/' :: joinSlash xs

/-- Turn separator chunks into components.  Empty chunks are skipped, "."
is the CurDir component only when it is the literal first chunk of a
rootless path (include_cur_dir of std::path), otherwise skipped, ".." is
ParentDir, anything else is Normal. -/
def chunksToComps : Bool → List Str → List PathComp
  | _, [] => []
  | first, c :: cs =>
    if c = [] then chunksToComps false cs
    else if c = ['.'] then
      if first then PathComp.curDir :: chunksToComps false cs
      else chunksToComps false cs
    else if c = ['.', '.'] then PathComp.parentDir :: chunksToComps false cs
    else PathComp.normal c :: chunksToComps false cs

/-- Parse a path string into its components, as std::path::Path::components
does on Unix: a leading '/' contributes RootDir, then the chunk rules of
chunksToComps apply. -/
def parseComps (p : Str) : List PathComp :=
  match p with
  | '/' :: _ => PathComp.rootDir :: chunksToComps false (splitSlash p)
  | _ => chunksToComps true (splitSlash p)

/-- Render one component back to characters. -/
def renderComp : PathComp → Str
  | PathComp.rootDir => ['/']
  | PathComp.curDir => ['.']
  | PathComp.parentDir => ['.', '.']
  | PathComp.normal s => s

/-- Render a component list back to a path string (no leading RootDir case
arises in this development: stripped remainders are always rootless). -/
def renderComps (cs : List PathComp) : Str :=
  joinSlash (cs.map renderComp)

/-- Boolean component-list prefix test, used by the strip_prefix and
starts_with models. -/
def compsIsPre : List PathComp → List PathComp → Bool
  | [], _ => true
  | _ :: _, [] => false
  | a :: as, b :: bs => if a = b then compsIsPre as bs else false

/-- PathBuf::push: an absolute argument replaces the whole path, otherwise
a separator is inserted when the base is nonempty and does not already end
with one. -/
def pushPath (base child : String) : String :=
  if child.data.head? = some '/' then child
  else if base.data = [] then child
  else if base.data.getLast? = some '/' then String.mk (base.data ++ child.data)
  else String.mk (base.data ++ '/' :: child.data)

/-- The concatenation built in list_files: an empty PathBuf, push the
mount point, push the record path. -/
def concatMount (mount_point asset_path : String) : String :=
  pushPath (pushPath "" mount_point) asset_path

/-- Path::strip_prefix, at component level: succeeds when the components
of pre form a prefix of the components of p, returning the remaining
components rendered back to a string. -/
def stripPrefixPath (p pre : String) : Option String :=
  let cp := parseComps p.data
  let cpre := parseComps pre.data
  if compsIsPre cpre cp then some (String.mk (renderComps (cp.drop cpre.length)))
  else none

/-- Path::starts_with, at component level (the same prefix test that
strip_prefix performs). -/
def pathStartsWith (p pre : String) : Bool :=
  compsIsPre (parseComps pre.data) (parseComps p.data)

/-- The fixed containment prefix stripped from every concatenated path in
list_files (the literal "../../.." of the source). -/
def containment : String := "../../.."

/-! ## Pak layer: PakError, list_files, list_zip_files -/

/-- The error enum of the source, one variant per source variant.  Payloads
that only carry foreign error values (u4pak, zip, io, StripPrefixError) are
dropped; AssetPathError keeps its diagnostic strings. -/
inductive PakError where
  | ErrorReadingPak : PakError
  | MissingMountPoint : PakError
  | MissingPakFile : PakError
  | AssetPathError : String → String → PakError
  | StripPrefixError : PakError
  | ZipError : PakError
  | IoError : PakError
deriving DecidableEq, Repr

/-- Result of Pak::from_reader on the selected entry: the declared mount
point (absent models index.mount_point() returning None) and the record
filenames in index order. -/
structure PakData where
  mount_point : Option String
  records : List String
deriving DecidableEq, Repr

/-- One entry of the zip container: its name, whether it is a regular
file, and the outcome of parsing its bytes as a pak (none models a
Pak::from_reader failure). -/
structure ZipEntry where
  name : String
  is_file : Bool
  pak : Option PakData
deriving DecidableEq, Repr

/-- An archive is its zip entry list in container order.  Container-level
corruption (ZipArchive::new or by_index failing) is outside this model:
claims about it are not among the ones settled here. -/
abbrev Archive := List ZipEntry

/-- Result::collect over an iterator of Results: the first error wins and
no partial list is produced. -/
def mapExcept (f : α → Except ε β) : List α → Except ε (List β)
  | [] => Except.ok []
  | a :: l =>
    match f a with
    | Except.error e => Except.error e
    | Except.ok b =>
      match mapExcept f l with
      | Except.error e => Except.error e
      | Except.ok bs => Except.ok (b :: bs)

/-- The per-record body of the closure in list_files: build
mount_point/asset_path with PathBuf::push, strip the containment prefix,
convert to str.  In this model to_str always succeeds, so AssetPathError
is never produced. -/
def normalize_path (mount_point asset_path : String) : Except PakError String :=
  match stripPrefixPath (concatMount mount_point asset_path) containment with
  | some s => Except.ok s
  | none => Except.error PakError.StripPrefixError

/-- list_files of the source, starting after read_to_end: parse the pak
(ErrorReadingPak on failure), require a mount point, then normalize every
record, collecting into a single Result. -/
def list_files (pak : Option PakData) : Except PakError (List String) :=
  match pak with
  | none => Except.error PakError.ErrorReadingPak
  | some pd =>
    match pd.mount_point with
    | none => Except.error PakError.MissingMountPoint
    | some mp => mapExcept (fun r => normalize_path mp r) pd.records

/-- Lowercasing of an entry name (char map; the ".pak" suffix test only
involves ASCII). -/
def strLower (s : String) : String := String.mk (s.data.map Char.toLower)

/-- Does the entry qualify as the embedded package entry: a regular file
whose lowercased name ends in ".pak". -/
def zipQualifies (e : ZipEntry) : Bool :=
  e.is_file && List.isSuffixOf ".pak".data (strLower e.name).data

/-- list_zip_files of the source: scan entries in container order, parse
the first qualifying one, and fail with MissingPakFile when none
qualifies. -/
def list_zip_files : Archive → Except PakError (List String)
  | [] => Except.error PakError.MissingPakFile
  | e :: rest =>
    if zipQualifies e then list_files e.pak
    else list_zip_files rest

/-! ## Extension splitting (model of Path::file_name / file_stem /
extension and str::strip_suffix, as used on each normalized path) -/

/-- Split a char list at its last '.', returning the parts before and
after it; none when no '.' occurs. -/
def splitAtLastDot : Str → Option (Str × Str)
  | [] => none
  | c :: cs =>
    match splitAtLastDot cs with
    | some (b, a) => some (c :: b, a)
    | none => if c = '.' then some ([], cs) else none

/-- Path::file_name: the final component when it is a Normal one. -/
def file_name_of (p : String) : Option String :=
  match (parseComps p.data).getLast? with
  | some (PathComp.normal s) => some (String.mk s)
  | _ => none

/-- Path::extension: the part of the file name after its last '.', absent
when there is no '.' or when the part before it is empty (hidden file). -/
def extension_of (p : String) : Option String :=
  (file_name_of p).bind fun n =>
    match splitAtLastDot n.data with
    | none => none
    | some (b, a) => if b = [] then none else some (String.mk a)

/-- Path::file_stem: the part of the file name before its last '.', or the
whole name when there is no '.' or the part before it is empty. -/
def file_stem_of (p : String) : Option String :=
  (file_name_of p).map fun n =>
    match splitAtLastDot n.data with
    | none => n
    | some (b, _) => if b = [] then n else String.mk b

/-- str::strip_suffix: remove suf from the end when it is a suffix, none
otherwise. -/
def dropSuffixStr (p suf : String) : Option String :=
  if List.isSuffixOf suf.data p.data then
    some (String.mk (p.data.take (p.data.length - suf.data.length)))
  else none

/-- One row of the pack_file table. -/
structure PackFileRow where
  id_modfile : Nat
  path : String
  path_no_extension : String
  extension : Option String
  name : Option String
deriving DecidableEq, Repr

/-- The per-path row construction repeated at both insertion sites of the
source (the sync loop and get_pack_files): compute extension and stem from
the path string, then strip the extension suffix; none models the panic of
the unwrap on strip_suffix. -/
def mkPackFileRow (id : Nat) (file : String) : Option PackFileRow :=
  let ext := extension_of file
  let name := file_stem_of file
  match ext with
  | some e =>
    match dropSuffixStr file e with
    | some pne =>
      some { id_modfile := id, path := file, path_no_extension := pne,
             extension := some e, name := name }
    | none => none
  | none =>
    some { id_modfile := id, path := file, path_no_extension := file,
           extension := none, name := name }

/-- Option-valued map used for the whole row list of one archive: any
panic aborts the batch. -/
def mapOpt (f : α → Option β) : List α → Option (List β)
  | [] => some []
  | a :: l =>
    match f a with
    | none => none
    | some b =>
      match mapOpt f l with
      | none => none
      | some bs => some (b :: bs)

/-! ## Relational store -/

/-- One row of the mod table. -/
structure ModRow where
  id_mod : Nat
  name : String
  name_id : String
  summary : String
  description : String
  id_modfile : Option Nat
deriving DecidableEq, Repr

/-- One row of the modfile table.  date_added keeps the raw timestamp; the
chrono rfc3339 rendering of the source is injective on the timestamps it
accepts and is abstracted away. -/
structure ModfileRow where
  id_modfile : Nat
  id_mod : Nat
  date_added : Nat
  hash_md5 : String
  filename : String
  version : Option String
  changelog : Option String
deriving DecidableEq, Repr

/-- The three tables. -/
structure Store where
  mods : List ModRow
  modfiles : List ModfileRow
  pack_files : List PackFileRow
deriving DecidableEq, Repr

/-- Remote modfile metadata as delivered by the catalog client. -/
structure FileRecord where
  id : Nat
  date_added : Nat
  md5 : String
  filename : String
  version : Option String
  changelog : Option String
deriving DecidableEq, Repr

/-- Remote mod metadata as delivered by the catalog client. -/
structure ModRecord where
  id : Nat
  name : String
  name_id : String
  summary : String
  description : String
  modfile : Option FileRecord
deriving DecidableEq, Repr

/-- The INSERT .. ON CONFLICT(id_mod) DO UPDATE of the source.  Note the
conflict branch of the source statement reads
"description = excluded.summary": on the update path the description
column receives the remote summary, faithfully reproduced here. -/
def upsertMod (db : Store) (m : ModRecord) : Store :=
  if db.mods.any (fun r => r.id_mod = m.id) then
    { db with mods := db.mods.map fun r =>
        if r.id_mod = m.id then
          { r with name := m.name, name_id := m.name_id,
                   summary := m.summary, description := m.summary }
        else r }
  else
    { db with mods := db.mods ++
        [{ id_mod := m.id, name := m.name, name_id := m.name_id,
           summary := m.summary, description := m.description,
           id_modfile := none }] }

/-- The SELECT id_modfile FROM mod WHERE id_mod = ? read-back.  fetch_one
of the source errors when the row is absent; the read always happens right
after upsertMod, so the row is present and the none of the absent case is
unreachable there. -/
def getStoredId (db : Store) (mid : Nat) : Option Nat :=
  match db.mods.find? (fun r => r.id_mod = mid) with
  | some r => r.id_modfile
  | none => none

/-- The INSERT .. ON CONFLICT(id_modfile) DO UPDATE for the modfile
table: every column is overwritten from the remote record. -/
def upsertModfile (db : Store) (mid : Nat) (f : FileRecord) : Store :=
  let row : ModfileRow :=
    { id_modfile := f.id, id_mod := mid, date_added := f.date_added,
      hash_md5 := f.md5, filename := f.filename, version := f.version,
      changelog := f.changelog }
  if db.modfiles.any (fun r => r.id_modfile = f.id) then
    { db with modfiles := db.modfiles.map fun r =>
        if r.id_modfile = f.id then row else r }
  else
    { db with modfiles := db.modfiles ++ [row] }

/-- UPDATE mod SET id_modfile = v WHERE id_mod = mid. -/
def setStoredId (db : Store) (mid : Nat) (v : Option Nat) : Store :=
  { db with mods := db.mods.map fun r =>
      if r.id_mod = mid then { r with id_modfile := v } else r }

/-- DELETE FROM pack_file WHERE id_modfile = fid. -/
def deletePack (db : Store) (fid : Nat) : Store :=
  { db with pack_files := db.pack_files.filter fun r => r.id_modfile != fid }

/-- The pack_file INSERT loop: rows are appended in order. -/
def insertPack (db : Store) (rows : List PackFileRow) : Store :=
  { db with pack_files := db.pack_files ++ rows }

/-! ## Sync engine -/

/-- Failures that abort a whole batch: a transport error while streaming a
download, or a process panic. -/
inductive RunError where
  | download : RunError
  | crash : RunError
deriving DecidableEq, Repr

/-- The external world: what the catalog client streams for a given
modfile id (none models a transport failure mid-download). -/
structure Env where
  download : Nat → Option Archive

/-- Local archive directory, keyed by content hash. -/
abbrev Filesys := List (String × Archive)

/-- Existence check / read of mods/{md5}.zip. -/
def lookupA (fs : Filesys) (md5 : String) : Option Archive :=
  (fs.find? (fun p => p.1 = md5)).map (fun p => p.2)

/-- Truncating write of mods/{md5}.zip. -/
def putA (fs : Filesys) (md5 : String) (a : Archive) : Filesys :=
  (md5, a) :: fs

/-- Full mutable state threaded through a sync batch: the store, the local
archive directory, the log of download attempts (by modfile id, in order)
and the reported per-unit indexing failures (mod or modfile id with the
cause). -/
structure SyncState where
  db : Store
  fs : Filesys
  downloads : List Nat
  reports : List (Nat × PakError)
deriving Repr

/-- Lines 239-260 of the source: delete the pack_file rows of the file id,
index the archive, and on success insert one row per path; an indexing
failure is printed (recorded) and the transaction still commits, leaving
the deletion in place.  The crash error models the unwrap panic in the row
construction. -/
def indexIntoTx (db : Store) (fid : Nat) (arch : Archive) (mid : Nat)
    (reports : List (Nat × PakError)) :
    Except RunError (Store × List (Nat × PakError)) :=
  let db := deletePack db fid
  match list_zip_files arch with
  | Except.ok files =>
    match mapOpt (mkPackFileRow fid) files with
    | some rows => Except.ok (insertPack db rows, reports)
    | none => Except.error RunError.crash
  | Except.error e => Except.ok (db, reports ++ [(mid, e)])

/-- update_mod of the source.  One transaction: upsert the mod row, read
back the stored modfile id, and when the remote id differs do the file
work (upsert modfile metadata, point the mod at it, download when the
archive is absent locally, then replace the pack_file rows).  An error
return models the dropped (rolled back) transaction plus the abort of the
batch. -/
def update_mod (env : Env) (s : SyncState) (m : ModRecord) :
    Except RunError SyncState :=
  let db1 := upsertMod s.db m
  let stored := getStoredId db1 m.id
  if m.modfile.map (fun f => f.id) = stored then
    Except.ok { s with db := db1 }
  else
    match m.modfile with
    | none => Except.ok { s with db := setStoredId db1 m.id none }
    | some file =>
      let db2 := setStoredId (upsertModfile db1 m.id file) m.id (some file.id)
      match lookupA s.fs file.md5 with
      | some arch =>
        match indexIntoTx db2 file.id arch m.id s.reports with
        | Except.ok (db3, reps) =>
          Except.ok { db := db3, fs := s.fs, downloads := s.downloads,
                      reports := reps }
        | Except.error e => Except.error e
      | none =>
        match env.download file.id with
        | none => Except.error RunError.download
        | some arch =>
          match indexIntoTx db2 file.id arch m.id s.reports with
          | Except.ok (db3, reps) =>
            Except.ok { db := db3, fs := putA s.fs file.md5 arch,
                        downloads := s.downloads ++ [file.id],
                        reports := reps }
          | Except.error e => Except.error e

/-- get_mods of the source, after the catalog fetch: iterate the visible
mods in order; the ? on update_mod propagates any error, aborting the
loop. -/
def get_mods (env : Env) (s : SyncState) : List ModRecord →
    Except RunError SyncState
  | [] => Except.ok s
  | m :: rest =>
    match update_mod env s m with
    | Except.ok s' => get_mods env s' rest
    | Except.error e => Except.error e

/-! ## Local reconciler -/

/-- get_pack_files of the source: open mods/{md5}.zip (IoError when
absent), index it, and build the row list; the outer none models the
unwrap panic in the row construction. -/
def get_pack_files (fs : Filesys) (id : Nat) (md5 : String) :
    Option (Except PakError (List PackFileRow)) :=
  match lookupA fs md5 with
  | none => some (Except.error PakError.IoError)
  | some a =>
    match list_zip_files a with
    | Except.error e => some (Except.error e)
    | Except.ok files => (mapOpt (mkPackFileRow id) files).map Except.ok

/-- The drain loop of update_pack_files_local, sequentialized in list
order: a successful indexing replaces the rows of that modfile id in one
transaction; a failure is reported and the file skipped.  none models a
worker panic surfacing through the join. -/
def rebuild_go (fs : Filesys) : List ModfileRow → List PackFileRow →
    List (Nat × PakError) → Option (List PackFileRow × List (Nat × PakError))
  | [], pf, rep => some (pf, rep)
  | mf :: rest, pf, rep =>
    match get_pack_files fs mf.id_modfile mf.hash_md5 with
    | none => none
    | some (Except.ok rows) =>
      rebuild_go fs rest
        ((pf.filter fun r => r.id_modfile != mf.id_modfile) ++ rows) rep
    | some (Except.error e) =>
      rebuild_go fs rest pf (rep ++ [(mf.id_modfile, e)])

/-- update_pack_files_local of the source: select every modfile row, then
run the rebuild loop over them against the current pack_file table. -/
def update_pack_files_local (fs : Filesys) (db : Store) :
    Option (Store × List (Nat × PakError)) :=
  (rebuild_go fs db.modfiles db.pack_files []).map fun pr =>
    ({ db with pack_files := pr.1 }, pr.2)

/-! ## Derived definitions used by the verification -/

/-- Well-formed component of a stripped remainder: a parent segment, or a
normal segment that is nonempty, not a dot segment, and separator-free. -/
def wfComp : PathComp → Prop
  | PathComp.parentDir => True
  | PathComp.normal s => s ≠ [] ∧ s ≠ ['.'] ∧ s ≠ ['.', '.'] ∧ '/' ∉ s
  | _ => False

/-- List-level view of getStoredId, used for induction. -/
def storedIdIn (l : List ModRow) (mid : Nat) : Option Nat :=
  match l.find? (fun r => r.id_mod = mid) with
  | some r => r.id_modfile
  | none => none

/-! ## Helper lemmas -/

/-- Scanning for the first qualifying entry is List.find? over the
qualification test. -/
theorem list_zip_files_find (a : Archive) :
    list_zip_files a =
      match a.find? zipQualifies with
      | some e => list_files e.pak
      | none => Except.error PakError.MissingPakFile := by
  induction a with
  | nil => rfl
  | cons e rest ih =>
    by_cases h : zipQualifies e = true
    · simp [list_zip_files, h, List.find?]
    · simp only [Bool.not_eq_true] at h
      simp [list_zip_files, h, List.find?]
      exact ih

/-- A single failing element makes the whole collected Result an error. -/
theorem mapExcept_error_of_mem (f : α → Except ε β) (l : List α) (a : α)
    (ha : a ∈ l) (e : ε) (he : f a = Except.error e) :
    ∃ e', mapExcept f l = Except.error e' := by
  induction l with
  | nil => cases ha
  | cons b t ih =>
    rcases List.mem_cons.mp ha with hb | ht
    · subst hb
      exact ⟨e, by simp [mapExcept, he]⟩
    · cases hfb : f b with
      | error e'' => exact ⟨e'', by simp [mapExcept, hfb]⟩
      | ok v =>
        rcases ih ht with ⟨e', h'⟩
        exact ⟨e', by simp [mapExcept, hfb, h']⟩

/-- Every element of a successfully collected Result comes from a
successful application to some input element. -/
theorem mapExcept_ok_mem (f : α → Except ε β) (l : List α) (bs : List β)
    (h : mapExcept f l = Except.ok bs) (b : β) (hb : b ∈ bs) :
    ∃ a, a ∈ l ∧ f a = Except.ok b := by
  induction l generalizing bs with
  | nil =>
    simp [mapExcept] at h
    subst h; cases hb
  | cons x t ih =>
    simp only [mapExcept] at h
    cases hfx : f x with
    | error e => simp [hfx] at h
    | ok v =>
      simp only [hfx] at h
      cases hrest : mapExcept f t with
      | error e => simp [hrest] at h
      | ok vs =>
        simp only [hrest] at h
        cases h
        rcases List.mem_cons.mp hb with hbv | hbs
        · exact ⟨x, List.mem_cons_self x t, by rw [hfx, hbv]⟩
        · rcases ih vs hrest hbs with ⟨a, hal, hfa⟩
          exact ⟨a, List.mem_cons_of_mem x hal, hfa⟩

/-! ## C9: entry selection in list_zip_files -/

/-- C9: the indexer scans entries in container order and parses the first
regular-file entry whose lowercased name ends in ".pak"; when no entry
qualifies it fails with MissingPakFile (the MissingPackageEntry of the
spec) and never returns an empty success. -/
theorem list_zip_files_selects_first_pak (a : Archive) :
    list_zip_files a =
      match a.find? zipQualifies with
      | some e => list_files e.pak
      | none => Except.error PakError.MissingPakFile :=
  list_zip_files_find a

/-! ## C5: one bad record invalidates the whole archive index -/

/-- C5: when the selected package entry's index contains a record whose
path normalization fails, indexing the archive returns an error and never
a path list with the bad record dropped. -/
theorem bad_record_invalidates_archive (a : Archive) (en : ZipEntry)
    (hfind : a.find? zipQualifies = some en) (pd : PakData)
    (hpak : en.pak = some pd) (mp : String)
    (hmp : pd.mount_point = some mp) (r : String) (hr : r ∈ pd.records)
    (e : PakError) (he : normalize_path mp r = Except.error e) :
    ∃ e', list_zip_files a = Except.error e' := by
  rcases mapExcept_error_of_mem (fun x => normalize_path mp x) pd.records r hr e he with
    ⟨e', h'⟩
  refine ⟨e', ?_⟩
  rw [list_zip_files_find, hfind]
  show list_files en.pak = Except.error e'
  rw [hpak]
  simp [list_files, hmp, h']

/-- Witness for C5 at a concrete archive whose single record escapes the
containment prefix. -/
theorem bad_record_invalidates_archive_witness :
    ∃ e', list_zip_files
        [{ name := "inner.pak", is_file := true,
           pak := some { mount_point := some "oops", records := ["a.b"] } }] =
      Except.error e' :=
  bad_record_invalidates_archive
    [{ name := "inner.pak", is_file := true,
       pak := some { mount_point := some "oops", records := ["a.b"] } }]
    { name := "inner.pak", is_file := true,
      pak := some { mount_point := some "oops", records := ["a.b"] } }
    rfl { mount_point := some "oops", records := ["a.b"] } rfl "oops" rfl
    "a.b" (by simp) PakError.StripPrefixError rfl

/-! ## C4: containment-prefix normalization -/

/-- C4 counterexample: a mount point of six parent segments concatenates
to a path that starts with the containment prefix, normalizes
successfully, and the normalized output itself still starts with the
containment prefix, contrary to the claim. -/
theorem normalize_containment_cex :
    pathStartsWith (concatMount "../../../../../.." "x") containment = true ∧
    normalize_path "../../../../../.." "x" = Except.ok "../../../x" ∧
    pathStartsWith "../../../x" containment = true :=
  ⟨rfl, rfl, rfl⟩

/-- C4 as amended: when the concatenated mount point and record path
starts (component-wise) with the containment prefix, normalization
succeeds and returns the concatenation minus its first three components —
a result that can itself still start with the prefix when further parent
segments follow; otherwise normalization fails with the StripPrefixError
variant. -/
theorem normalize_path_containment_spec (mount_point asset_path : String) :
    (pathStartsWith (concatMount mount_point asset_path) containment = true →
      normalize_path mount_point asset_path =
        Except.ok (String.mk (renderComps
          ((parseComps (concatMount mount_point asset_path).data).drop 3)))) ∧
    (pathStartsWith (concatMount mount_point asset_path) containment = false →
      normalize_path mount_point asset_path =
        Except.error PakError.StripPrefixError) := by
  constructor
  · intro h
    unfold pathStartsWith at h
    simp only [normalize_path, stripPrefixPath, h, if_true]
    rfl
  · intro h
    unfold pathStartsWith at h
    simp only [normalize_path, stripPrefixPath, h, Bool.false_eq_true, if_false]

/-- Witness for C4's amended theorem at one succeeding and one failing
pair. -/
theorem normalize_path_containment_spec_witness :
    normalize_path "../../../FSD" "x" =
      Except.ok (String.mk (renderComps
        ((parseComps (concatMount "../../../FSD" "x").data).drop 3))) ∧
    normalize_path "/abs" "b" = Except.error PakError.StripPrefixError :=
  ⟨(normalize_path_containment_spec "../../../FSD" "x").1 rfl,
   (normalize_path_containment_spec "/abs" "b").2 rfl⟩

/-! ## C3: the mod-row upsert overwrites description with the summary -/

/-- C3: evaluating update_mod for a mod whose row already exists shows the
conflict branch of the upsert writing the remote summary into the
description column (the source statement reads
description = excluded.summary), so the description field is not refreshed
with the remote description. -/
theorem update_mod_description_slip :
    (update_mod ⟨fun _ => none⟩
        { db := { mods := [{ id_mod := 1, name := "n0", name_id := "s0",
                             summary := "old-sum", description := "old-desc",
                             id_modfile := none }],
                  modfiles := [], pack_files := [] },
          fs := [], downloads := [], reports := [] }
        { id := 1, name := "n", name_id := "slug", summary := "SUM",
          description := "DESC", modfile := none }).map
      (fun s => s.db.mods.map (fun r => r.description)) =
      Except.ok ["SUM"] :=
  rfl

/-! ## C1: a mod failure aborts the batch -/

/-- C1 counterexample: a transport failure while downloading the first
mod's archive makes get_mods return an error, so the second mod is never
attempted — refuting that per-mod failures never abort the batch. -/
theorem get_mods_abort_on_mod_failure_cex :
    get_mods ⟨fun _ => none⟩
      { db := { mods := [], modfiles := [], pack_files := [] },
        fs := [], downloads := [], reports := [] }
      [{ id := 1, name := "a", name_id := "a", summary := "s",
         description := "d",
         modfile := some { id := 10, date_added := 0, md5 := "h",
                           filename := "f", version := none,
                           changelog := none } },
       { id := 2, name := "b", name_id := "b", summary := "s",
         description := "d", modfile := none }] =
      Except.error RunError.download :=
  rfl

/-! ## C7: counterexample to one download attempt per change -/

/-- C7 counterexample: the current file id changes to a file whose archive
is already present locally; the pack_file rows are replaced for the new
id, yet zero download attempts occur, refuting the claimed exactly-one
download attempt. -/
theorem update_mod_no_download_cex :
    (update_mod ⟨fun _ => none⟩
        { db := { mods := [], modfiles := [], pack_files := [] },
          fs := [("h", [{ name := "p.pak", is_file := true,
                          pak := some { mount_point := some "../../../A",
                                        records := ["b.c"] } }])],
          downloads := [], reports := [] }
        { id := 1, name := "n", name_id := "s", summary := "su",
          description := "de",
          modfile := some { id := 10, date_added := 0, md5 := "h",
                            filename := "f", version := none,
                            changelog := none } }).map
      (fun s => (s.downloads, s.db.pack_files)) =
      Except.ok ([],
        [{ id_modfile := 10, path := "A/b.c", path_no_extension := "A/b.",
           extension := some "c", name := some "b" }]) :=
  rfl

/-! ## C2: counterexample for the reconciler half -/

/-- C2 counterexample: in the reconciler an indexing failure (here a
missing local archive) leaves the file's previous pack_file rows exactly
as they were — a non-empty PathEntry set — refuting that every indexing
failure in the pipeline leaves the set empty. -/
theorem rebuild_failure_keeps_rows_cex :
    update_pack_files_local []
      { mods := [],
        modfiles := [{ id_modfile := 5, id_mod := 1, date_added := 0,
                       hash_md5 := "m", filename := "f", version := none,
                       changelog := none }],
        pack_files := [{ id_modfile := 5, path := "X.y",
                         path_no_extension := "X.", extension := some "y",
                         name := some "X" }] } =
      some ({ mods := [],
              modfiles := [{ id_modfile := 5, id_mod := 1, date_added := 0,
                             hash_md5 := "m", filename := "f",
                             version := none, changelog := none }],
              pack_files := [{ id_modfile := 5, path := "X.y",
                               path_no_extension := "X.",
                               extension := some "y", name := some "X" }] },
            [(5, PakError.IoError)]) :=
  rfl

/-! ## Path-layer lemmas: shape of normalized outputs -/

theorem splitSlash_ne_nil (p : Str) : splitSlash p ≠ [] := by
  cases p with
  | nil => simp [splitSlash]
  | cons c cs =>
    by_cases h : c = '/'
    · simp [splitSlash, h]
    · simp only [splitSlash, h, if_false]
      cases hs : splitSlash cs <;> simp

theorem mem_splitSlash_no_slash (p : Str) (c : Str) (h : c ∈ splitSlash p) :
    '/' ∉ c := by
  induction p generalizing c with
  | nil =>
    simp [splitSlash] at h
    simp [h]
  | cons x xs ih =>
    by_cases hx : x = '/'
    · simp only [splitSlash, hx, if_true] at h
      rcases List.mem_cons.mp h with h | h
      · simp [h]
      · exact ih c h
    · simp only [splitSlash, hx, if_false] at h
      cases hs : splitSlash xs with
      | nil => exact absurd hs (splitSlash_ne_nil xs)
      | cons hd tl =>
        rw [hs] at h
        rcases List.mem_cons.mp h with h | h
        · subst h
          intro hmem
          rcases List.mem_cons.mp hmem with h' | h'
          · exact hx h'.symm
          · have : '/' ∉ hd := ih hd (hs ▸ List.mem_cons_self hd tl)
            exact this h'
        · exact ih c (hs ▸ List.mem_cons_of_mem hd h)

theorem splitSlash_append_slash (x r : Str) (hx : '/' ∉ x) :
    splitSlash (x ++ '/' :: r) = x :: splitSlash r := by
  induction x with
  | nil => simp [splitSlash]
  | cons c cs ih =>
    have hc : c ≠ '/' := fun h => hx (h ▸ List.mem_cons_self c cs)
    have hcs : '/' ∉ cs := fun h => hx (List.mem_cons_of_mem c h)
    show splitSlash (c :: (cs ++ '/' :: r)) = (c :: cs) :: splitSlash r
    simp only [splitSlash, hc, if_false, List.append_eq, ih hcs]

theorem splitSlash_of_no_slash (x : Str) (hx : '/' ∉ x) :
    splitSlash x = [x] := by
  induction x with
  | nil => rfl
  | cons c cs ih =>
    have hc : c ≠ '/' := fun h => hx (h ▸ List.mem_cons_self c cs)
    have hcs : '/' ∉ cs := fun h => hx (List.mem_cons_of_mem c h)
    simp only [splitSlash, hc, if_false, ih hcs]

theorem splitSlash_joinSlash (l : List Str) (hl : l ≠ [])
    (h : ∀ c ∈ l, '/' ∉ c) : splitSlash (joinSlash l) = l := by
  induction l with
  | nil => exact absurd rfl hl
  | cons x xs ih =>
    cases xs with
    | nil =>
      show splitSlash (joinSlash [x]) = [x]
      exact splitSlash_of_no_slash x (h x (List.mem_cons_self x []))
    | cons y ys =>
      show splitSlash (x ++ '/' :: joinSlash (y :: ys)) = x :: y :: ys
      rw [splitSlash_append_slash x _ (h x (List.mem_cons_self x (y :: ys)))]
      rw [ih (by simp) (fun c hc => h c (List.mem_cons_of_mem x hc))]

theorem chunksToComps_mem (chunks : List Str) (b : Bool) (x : PathComp)
    (hx : x ∈ chunksToComps b chunks) (h : ∀ c ∈ chunks, '/' ∉ c) :
    x = PathComp.curDir ∨ wfComp x := by
  induction chunks generalizing b with
  | nil => cases hx
  | cons c cs ih =>
    have hc : '/' ∉ c := h c (List.mem_cons_self c cs)
    have hcs : ∀ d ∈ cs, '/' ∉ d := fun d hd => h d (List.mem_cons_of_mem c hd)
    by_cases h1 : c = []
    · simp only [chunksToComps, h1, if_true] at hx
      exact ih false hx hcs
    · by_cases h2 : c = ['.']
      · simp only [chunksToComps, h1, if_false, h2, if_true] at hx
        cases b with
        | true =>
          simp only [if_true] at hx
          rcases List.mem_cons.mp hx with h' | h'
          · exact Or.inl h'
          · exact ih false h' hcs
        | false =>
          simp only [Bool.false_eq_true, if_false] at hx
          exact ih false hx hcs
      · by_cases h3 : c = ['.', '.']
        · simp only [chunksToComps, h1, if_false, h2, if_false, h3, if_true] at hx
          rcases List.mem_cons.mp hx with h' | h'
          · subst h'; exact Or.inr trivial
          · exact ih false h' hcs
        · simp only [chunksToComps, h1, if_false, h2, if_false, h3, if_false] at hx
          rcases List.mem_cons.mp hx with h' | h'
          · subst h'; exact Or.inr ⟨h1, h2, h3, hc⟩
          · exact ih false h' hcs

theorem chunksToComps_no_cur (chunks : List Str) :
    PathComp.curDir ∉ chunksToComps false chunks := by
  induction chunks with
  | nil => simp [chunksToComps]
  | cons c cs ih =>
    by_cases h1 : c = []
    · simpa [chunksToComps, h1] using ih
    · by_cases h2 : c = ['.']
      · simpa [chunksToComps, h1, h2] using ih
      · by_cases h3 : c = ['.', '.']
        · simp only [chunksToComps, h1, if_false, h2, if_false, h3, if_true]
          intro hmem
          rcases List.mem_cons.mp hmem with h' | h'
          · cases h'
          · exact ih h'
        · simp only [chunksToComps, h1, if_false, h2, if_false, h3, if_false]
          intro hmem
          rcases List.mem_cons.mp hmem with h' | h'
          · cases h'
          · exact ih h'

theorem chunksToComps_cons_tail (chunks : List Str) (b : Bool)
    (x : PathComp) (rest : List PathComp)
    (h : chunksToComps b chunks = x :: rest) :
    ∃ l', l' <:+ chunks ∧ rest = chunksToComps false l' := by
  induction chunks generalizing b with
  | nil => cases h
  | cons c cs ih =>
    by_cases h1 : c = []
    · simp only [chunksToComps, h1, if_true] at h
      rcases ih false h with ⟨l', hl', hr⟩
      exact ⟨l', hl'.trans (List.suffix_cons c cs), hr⟩
    · by_cases h2 : c = ['.']
      · simp only [chunksToComps, h1, if_false, h2, if_true] at h
        cases b with
        | true =>
          simp only [if_true] at h
          cases h
          exact ⟨cs, List.suffix_cons c cs, rfl⟩
        | false =>
          simp only [Bool.false_eq_true, if_false] at h
          rcases ih false h with ⟨l', hl', hr⟩
          exact ⟨l', hl'.trans (List.suffix_cons c cs), hr⟩
      · by_cases h3 : c = ['.', '.']
        · simp only [chunksToComps, h1, if_false, h2, if_false, h3, if_true] at h
          cases h
          exact ⟨cs, List.suffix_cons c cs, rfl⟩
        · simp only [chunksToComps, h1, if_false, h2, if_false, h3, if_false] at h
          cases h
          exact ⟨cs, List.suffix_cons c cs, rfl⟩

theorem chunksToComps_map_render (cs : List PathComp)
    (h : ∀ x ∈ cs, wfComp x) (b : Bool) :
    chunksToComps b (cs.map renderComp) = cs := by
  induction cs generalizing b with
  | nil => rfl
  | cons c t ih =>
    have hc : wfComp c := h c (List.mem_cons_self c t)
    have ht : ∀ x ∈ t, wfComp x := fun x hx => h x (List.mem_cons_of_mem c hx)
    cases c with
    | rootDir => cases hc
    | curDir => cases hc
    | parentDir =>
      show chunksToComps b (['.', '.'] :: t.map renderComp) = _
      have hstep : chunksToComps b (['.', '.'] :: t.map renderComp) =
          PathComp.parentDir :: chunksToComps false (t.map renderComp) := rfl
      rw [hstep, ih ht false]
    | normal s =>
      rcases hc with ⟨hne, hdot, hdots, _⟩
      show chunksToComps b (s :: t.map renderComp) = _
      have hstep : chunksToComps b (s :: t.map renderComp) =
          PathComp.normal s :: chunksToComps false (t.map renderComp) := by
        simp only [chunksToComps, hne, hdot, hdots, if_false]
      rw [hstep, ih ht false]

theorem parseComps_eq_chunks (p : Str) (h : ∀ q, p ≠ '/' :: q) :
    parseComps p = chunksToComps true (splitSlash p) := by
  cases p with
  | nil => rfl
  | cons a as =>
    have ha : a ≠ '/' := by
      intro h'
      exact h as (by rw [h'])
    unfold parseComps
    split
    · next q heq =>
      injection heq with h1 h2
      exact absurd h1 ha
    · rfl

theorem renderComp_ne_nil (c : PathComp) (hc : wfComp c) :
    renderComp c ≠ [] := by
  cases c with
  | rootDir => cases hc
  | curDir => cases hc
  | parentDir => simp [renderComp]
  | normal s => exact hc.1

theorem renderComp_no_slash (c : PathComp) (hc : wfComp c) :
    '/' ∉ renderComp c := by
  cases c with
  | rootDir => cases hc
  | curDir => cases hc
  | parentDir => simp [renderComp]
  | normal s => exact hc.2.2.2

theorem joinSlash_head (x : Str) (xs : List Str) :
    ∃ r, joinSlash (x :: xs) = x ++ r := by
  cases xs with
  | nil => exact ⟨[], by simp [joinSlash]⟩
  | cons y ys => exact ⟨'/' :: joinSlash (y :: ys), rfl⟩

theorem parseComps_renderComps (cs : List PathComp)
    (h : ∀ x ∈ cs, wfComp x) : parseComps (renderComps cs) = cs := by
  cases cs with
  | nil => rfl
  | cons c t =>
    have hc : wfComp c := h c (List.mem_cons_self c t)
    have hnosl : ∀ d ∈ (c :: t).map renderComp, '/' ∉ d := by
      intro d hd
      rcases List.mem_map.mp hd with ⟨x, hx, hdx⟩
      exact hdx ▸ renderComp_no_slash x (h x hx)
    have hne : ∀ q, renderComps (c :: t) ≠ '/' :: q := by
      intro q hq
      rcases joinSlash_head (renderComp c) (t.map renderComp) with ⟨r, hr⟩
      unfold renderComps at hq
      rw [List.map_cons] at hq
      rw [hr] at hq
      cases hrc : renderComp c with
      | nil => exact renderComp_ne_nil c hc hrc
      | cons a as =>
        rw [hrc] at hq
        have ha : a = '/' := (List.cons.injEq .. ▸ hq).1
        exact renderComp_no_slash c hc (hrc ▸ (ha ▸ List.mem_cons_self a as))
    rw [parseComps_eq_chunks _ hne]
    unfold renderComps
    rw [splitSlash_joinSlash _ (by simp) hnosl]
    exact chunksToComps_map_render _ h true

theorem renderComps_getLast_normal (cs : List PathComp) (s : Str)
    (h : cs.getLast? = some (PathComp.normal s)) :
    ∃ pre, renderComps cs = pre ++ s := by
  induction cs with
  | nil => cases h
  | cons c t ih =>
    cases t with
    | nil =>
      simp only [List.getLast?_singleton, Option.some.injEq] at h
      subst h
      exact ⟨[], rfl⟩
    | cons y ys =>
      rw [List.getLast?_cons_cons] at h
      rcases ih h with ⟨pre, hpre⟩
      refine ⟨renderComp c ++ '/' :: pre, ?_⟩
      show renderComp c ++ '/' :: renderComps (y :: ys) = _
      rw [hpre, List.append_assoc, List.cons_append]

theorem splitAtLastDot_some (n b a : Str) (h : splitAtLastDot n = some (b, a)) :
    n = b ++ '.' :: a := by
  induction n generalizing b a with
  | nil => cases h
  | cons c cs ih =>
    simp only [splitAtLastDot] at h
    cases hcs : splitAtLastDot cs with
    | some pr =>
      rw [hcs] at h
      cases h
      exact congrArg (c :: ·) (ih pr.1 pr.2 (by rw [hcs]))
    | none =>
      rw [hcs] at h
      by_cases hc : c = '.'
      · simp only [hc, if_true, Option.some.injEq] at h
        cases h
        rw [hc]
        rfl
      · simp [hc] at h

theorem compsIsPre_cons (a : PathComp) (l m : List PathComp)
    (h : compsIsPre (a :: l) m = true) :
    ∃ m', m = a :: m' ∧ compsIsPre l m' = true := by
  cases m with
  | nil => simp [compsIsPre] at h
  | cons b bs =>
    by_cases hab : a = b
    · subst hab
      refine ⟨bs, rfl, ?_⟩
      simpa [compsIsPre] using h
    · simp [compsIsPre, hab] at h

/-- Every successful normalization result is the rendering of a
well-formed component list (the remainder after the three stripped parent
segments). -/
theorem normalize_ok_shape (mp r p : String)
    (h : normalize_path mp r = Except.ok p) :
    ∃ cs, (∀ x ∈ cs, wfComp x) ∧ p = String.mk (renderComps cs) := by
  unfold normalize_path at h
  cases hstrip : stripPrefixPath (concatMount mp r) containment with
  | none => rw [hstrip] at h; cases h
  | some q =>
    rw [hstrip] at h
    cases h
    simp only [stripPrefixPath] at hstrip
    have hcpre : parseComps containment.data =
        [PathComp.parentDir, PathComp.parentDir, PathComp.parentDir] := rfl
    rw [hcpre] at hstrip
    cases hpre : compsIsPre
        [PathComp.parentDir, PathComp.parentDir, PathComp.parentDir]
        (parseComps (concatMount mp r).data) with
    | false => rw [hpre] at hstrip; cases hstrip
    | true =>
      rw [hpre, if_pos rfl] at hstrip
      rcases compsIsPre_cons _ _ _ hpre with ⟨m1, hm1, hpre1⟩
      rcases compsIsPre_cons _ _ _ hpre1 with ⟨m2, hm2, hpre2⟩
      rcases compsIsPre_cons _ _ _ hpre2 with ⟨m3, hm3, _⟩
      have hcp : parseComps (concatMount mp r).data =
          PathComp.parentDir :: PathComp.parentDir :: PathComp.parentDir :: m3 := by
        rw [hm1, hm2, hm3]
      have hnotroot : ∀ t, (concatMount mp r).data ≠ '/' :: t := by
        intro t ht
        have : parseComps (concatMount mp r).data =
            PathComp.rootDir :: chunksToComps false (splitSlash ((concatMount mp r).data)) := by
          rw [ht]; rfl
        rw [hcp] at this
        cases this
      have hchunks : parseComps (concatMount mp r).data =
          chunksToComps true (splitSlash (concatMount mp r).data) :=
        parseComps_eq_chunks _ hnotroot
      -- peel three parent components to expose the remainder as a
      -- chunksToComps false of a suffix of the original chunks
      rw [hchunks] at hcp
      rcases chunksToComps_cons_tail _ _ _ _ hcp with ⟨l1, hl1, hr1⟩
      rcases chunksToComps_cons_tail _ _ _ _ hr1.symm with ⟨l2, hl2, hr2⟩
      rcases chunksToComps_cons_tail _ _ _ _ hr2.symm with ⟨l3, hl3, hr3⟩
      have hl3' : l3 <:+ splitSlash (concatMount mp r).data :=
        (hl3.trans hl2).trans hl1
      have hwf : ∀ x ∈ m3, wfComp x := by
        intro x hx
        have hx' : x ∈ chunksToComps false l3 := hr3 ▸ hx
        have hns : ∀ c ∈ l3, '/' ∉ c := by
          intro c hc
          exact mem_splitSlash_no_slash _ c (hl3'.subset hc)
        rcases chunksToComps_mem l3 false x hx' hns with hcur | hwfx
        · exact absurd (hcur ▸ hx') (chunksToComps_no_cur l3)
        · exact hwfx
      refine ⟨m3, hwf, ?_⟩
      injection hstrip with hq
      rw [← hq]
      have hdrop : (parseComps (concatMount mp r).data).drop
          ([PathComp.parentDir, PathComp.parentDir, PathComp.parentDir] :
            List PathComp).length = m3 := by
        rw [hchunks, hcp]
        rfl
      rw [hdrop]

/-- Every path in a successful archive-index result is the rendering of a
well-formed component list. -/
theorem list_zip_files_ok_shape (a : Archive) (files : List String)
    (h : list_zip_files a = Except.ok files) (p : String) (hp : p ∈ files) :
    ∃ cs, (∀ x ∈ cs, wfComp x) ∧ p = String.mk (renderComps cs) := by
  rw [list_zip_files_find] at h
  cases hfind : a.find? zipQualifies with
  | none =>
    rw [hfind] at h
    exact Except.noConfusion h
  | some en =>
    rw [hfind] at h
    have h1 : list_files en.pak = Except.ok files := h
    cases hpak : en.pak with
    | none =>
      rw [hpak] at h1
      exact Except.noConfusion h1
    | some pd =>
      rw [hpak] at h1
      have h2 : (match pd.mount_point with
          | none => Except.error PakError.MissingMountPoint
          | some mp => mapExcept (fun r => normalize_path mp r) pd.records) =
          Except.ok files := h1
      cases hmp : pd.mount_point with
      | none =>
        rw [hmp] at h2
        exact Except.noConfusion h2
      | some mp =>
        rw [hmp] at h2
        rcases mapExcept_ok_mem _ _ _ h2 p hp with ⟨r, _, hr⟩
        exact normalize_ok_shape mp r p hr

/-- The row construction succeeds on the rendering of any well-formed
component list, and the produced row satisfies the path/extension
invariant. -/
theorem mkPackFileRow_render_spec (id : Nat) (cs : List PathComp)
    (h : ∀ x ∈ cs, wfComp x) :
    ∃ row, mkPackFileRow id (String.mk (renderComps cs)) = some row ∧
      row.path = String.mk (renderComps cs) ∧
      (∀ e, row.extension = some e →
         row.path.data = row.path_no_extension.data ++ e.data ∧
         ∃ q, row.path_no_extension.data = q ++ ['.']) ∧
      (row.extension = none → row.path_no_extension = row.path) := by
  have hparse : parseComps (String.mk (renderComps cs)).data = cs :=
    parseComps_renderComps cs h
  have hfn : file_name_of (String.mk (renderComps cs)) =
      (match cs.getLast? with
       | some (PathComp.normal s) => some (String.mk s)
       | _ => none) := by
    unfold file_name_of
    rw [hparse]
  have noext : extension_of (String.mk (renderComps cs)) = none →
      ∃ row, mkPackFileRow id (String.mk (renderComps cs)) = some row ∧
        row.path = String.mk (renderComps cs) ∧
        (∀ e, row.extension = some e →
           row.path.data = row.path_no_extension.data ++ e.data ∧
           ∃ q, row.path_no_extension.data = q ++ ['.']) ∧
        (row.extension = none → row.path_no_extension = row.path) := by
    intro hext
    refine ⟨{ id_modfile := id, path := String.mk (renderComps cs),
              path_no_extension := String.mk (renderComps cs),
              extension := none,
              name := file_stem_of (String.mk (renderComps cs)) },
            ?_, rfl, ?_, ?_⟩
    · simp only [mkPackFileRow, hext]
    · intro e he
      simp at he
    · intro _
      rfl
  cases hlast : cs.getLast? with
  | none =>
    apply noext
    unfold extension_of
    rw [hfn, hlast]
    rfl
  | some c =>
    cases c with
    | rootDir =>
      apply noext
      unfold extension_of
      rw [hfn, hlast]
      rfl
    | curDir =>
      apply noext
      unfold extension_of
      rw [hfn, hlast]
      rfl
    | parentDir =>
      apply noext
      unfold extension_of
      rw [hfn, hlast]
      rfl
    | normal s =>
      cases hsplit : splitAtLastDot s with
      | none =>
        apply noext
        unfold extension_of
        rw [hfn, hlast]
        show (match splitAtLastDot (String.mk s).data with
          | none => none
          | some (b, a) => if b = [] then none else some (String.mk a)) = none
        have : (String.mk s).data = s := rfl
        rw [this, hsplit]
      | some pr =>
        rcases pr with ⟨b, a⟩
        by_cases hb : b = []
        · apply noext
          unfold extension_of
          rw [hfn, hlast]
          show (match splitAtLastDot (String.mk s).data with
            | none => none
            | some (b, a) => if b = [] then none else some (String.mk a)) = none
          have : (String.mk s).data = s := rfl
          rw [this, hsplit]
          simp [hb]
        · have hext : extension_of (String.mk (renderComps cs)) =
              some (String.mk a) := by
            unfold extension_of
            rw [hfn, hlast]
            show (match splitAtLastDot (String.mk s).data with
              | none => none
              | some (b, a) => if b = [] then none else some (String.mk a)) =
              some (String.mk a)
            have : (String.mk s).data = s := rfl
            rw [this, hsplit]
            simp [hb]
          rcases renderComps_getLast_normal cs s hlast with ⟨pre, hpre⟩
          have hs : s = b ++ '.' :: a := splitAtLastDot_some s b a hsplit
          have hX : renderComps cs = (pre ++ (b ++ ['.'])) ++ a := by
            rw [hpre, hs]
            simp [List.append_assoc]
          have hsuf : List.isSuffixOf (String.mk a).data
              (String.mk (renderComps cs)).data = true := by
            apply List.isSuffixOf_iff_suffix.mpr
            show (String.mk a).data <:+ (String.mk (renderComps cs)).data
            refine ⟨pre ++ (b ++ ['.']), ?_⟩
            show (pre ++ (b ++ ['.'])) ++ a = renderComps cs
            exact hX.symm
          have htake : List.take ((renderComps cs).length - a.length)
              (renderComps cs) = pre ++ (b ++ ['.']) := by
            rw [hX, List.length_append, Nat.add_sub_cancel]
            exact List.take_left _ _
          have hdrop : dropSuffixStr (String.mk (renderComps cs))
              (String.mk a) = some (String.mk (pre ++ (b ++ ['.']))) := by
            unfold dropSuffixStr
            rw [hsuf, if_pos rfl]
            show some (String.mk (List.take
                ((renderComps cs).length - a.length) (renderComps cs))) = _
            rw [htake]
          refine ⟨{ id_modfile := id, path := String.mk (renderComps cs),
                    path_no_extension := String.mk (pre ++ (b ++ ['.'])),
                    extension := some (String.mk a),
                    name := file_stem_of (String.mk (renderComps cs)) },
                  ?_, rfl, ?_, ?_⟩
          · simp only [mkPackFileRow, hext, hdrop]
          · intro e he
            simp only [Option.some.injEq] at he
            subst he
            constructor
            · show renderComps cs = (pre ++ (b ++ ['.'])) ++ a
              exact hX
            · exact ⟨pre ++ b, by simp [List.append_assoc]⟩
          · intro hnone
            simp at hnone

/-- Row construction never fails on the outputs of a successful archive
indexing. -/
theorem rows_some (fid : Nat) (a : Archive) (files : List String)
    (h : list_zip_files a = Except.ok files) :
    ∃ rows, mapOpt (mkPackFileRow fid) files = some rows := by
  suffices hs : ∀ l, (∀ p ∈ l, ∃ row, mkPackFileRow fid p = some row) →
      ∃ rows, mapOpt (mkPackFileRow fid) l = some rows by
    apply hs
    intro p hp
    rcases list_zip_files_ok_shape a files h p hp with ⟨cs, hwf, hps⟩
    rcases mkPackFileRow_render_spec fid cs hwf with ⟨row, hrow, _⟩
    exact ⟨row, hps ▸ hrow⟩
  intro l hl
  induction l with
  | nil => exact ⟨[], rfl⟩
  | cons x t ih =>
    rcases hl x (List.mem_cons_self x t) with ⟨row, hrow⟩
    rcases ih (fun p hp => hl p (List.mem_cons_of_mem x hp)) with ⟨rows, hrows⟩
    exact ⟨row :: rows, by simp [mapOpt, hrow, hrows]⟩

/-- Every produced row carries the file id it was built for. -/
theorem mkPackFileRow_id (id : Nat) (p : String) (row : PackFileRow)
    (h : mkPackFileRow id p = some row) : row.id_modfile = id := by
  cases hext : extension_of p with
  | none =>
    simp only [mkPackFileRow, hext] at h
    cases h
    rfl
  | some e =>
    cases hdrop : dropSuffixStr p e with
    | none =>
      have hnone : mkPackFileRow id p = none := by
        simp only [mkPackFileRow, hext, hdrop]
      rw [hnone] at h
      exact Option.noConfusion h
    | some pne =>
      simp only [mkPackFileRow, hext, hdrop] at h
      cases h
      rfl

/-- Elements of a successful mapOpt come from successful applications. -/
theorem mapOpt_mem (f : α → Option β) (l : List α) (bs : List β)
    (h : mapOpt f l = some bs) (b : β) (hb : b ∈ bs) :
    ∃ a, a ∈ l ∧ f a = some b := by
  induction l generalizing bs with
  | nil =>
    simp only [mapOpt, Option.some.injEq] at h
    subst h
    cases hb
  | cons x t ih =>
    simp only [mapOpt] at h
    cases hfx : f x with
    | none => rw [hfx] at h; cases h
    | some v =>
      rw [hfx] at h
      cases hrest : mapOpt f t with
      | none => rw [hrest] at h; cases h
      | some vs =>
        rw [hrest] at h
        cases h
        rcases List.mem_cons.mp hb with hbv | hbs
        · exact ⟨x, List.mem_cons_self x t, by rw [hfx, hbv]⟩
        · rcases ih vs hrest hbs with ⟨a', hal, hfa⟩
          exact ⟨a', List.mem_cons_of_mem x hal, hfa⟩

/-! ## C10: the pack_file row invariant -/

/-- C10: every row the pipeline builds from a normalized path satisfies
the invariant: when the extension field is present the path is the
path_no_extension followed by the extension and path_no_extension keeps
the trailing dot; when absent, path_no_extension equals the path; and the
strip_suffix unwrap in the row construction never panics on these
inputs. -/
theorem pack_row_extension_invariant (a : Archive) (files : List String)
    (h : list_zip_files a = Except.ok files) (p : String) (hp : p ∈ files)
    (id : Nat) :
    ∃ row, mkPackFileRow id p = some row ∧ row.path = p ∧
      (∀ e, row.extension = some e →
         row.path.data = row.path_no_extension.data ++ e.data ∧
         ∃ q, row.path_no_extension.data = q ++ ['.']) ∧
      (row.extension = none → row.path_no_extension = row.path) := by
  rcases list_zip_files_ok_shape a files h p hp with ⟨cs, hwf, hps⟩
  subst hps
  exact mkPackFileRow_render_spec id cs hwf

/-- Witness for C10 at a concrete archive with one record. -/
theorem pack_row_extension_invariant_witness :
    ∃ row, mkPackFileRow 7 "A/b.c" = some row ∧ row.path = "A/b.c" ∧
      (∀ e, row.extension = some e →
         row.path.data = row.path_no_extension.data ++ e.data ∧
         ∃ q, row.path_no_extension.data = q ++ ['.']) ∧
      (row.extension = none → row.path_no_extension = row.path) :=
  pack_row_extension_invariant
    [{ name := "p.pak", is_file := true,
       pak := some { mount_point := some "../../../A",
                     records := ["b.c"] } }]
    ["A/b.c"] rfl "A/b.c" (by simp) 7

/-! ## Store lemmas -/

theorem upsertMod_pack_files (db : Store) (m : ModRecord) :
    (upsertMod db m).pack_files = db.pack_files := by
  unfold upsertMod
  split <;> rfl

theorem upsertMod_modfiles (db : Store) (m : ModRecord) :
    (upsertMod db m).modfiles = db.modfiles := by
  unfold upsertMod
  split <;> rfl

theorem upsertModfile_mods (db : Store) (mid : Nat) (f : FileRecord) :
    (upsertModfile db mid f).mods = db.mods := by
  unfold upsertModfile
  split <;> rfl

theorem upsertModfile_pack_files (db : Store) (mid : Nat) (f : FileRecord) :
    (upsertModfile db mid f).pack_files = db.pack_files := by
  unfold upsertModfile
  split <;> rfl

theorem setStoredId_pack_files (db : Store) (mid : Nat) (v : Option Nat) :
    (setStoredId db mid v).pack_files = db.pack_files := rfl

theorem setStoredId_modfiles (db : Store) (mid : Nat) (v : Option Nat) :
    (setStoredId db mid v).modfiles = db.modfiles := rfl

theorem deletePack_mods (db : Store) (fid : Nat) :
    (deletePack db fid).mods = db.mods := rfl

theorem insertPack_mods (db : Store) (rows : List PackFileRow) :
    (insertPack db rows).mods = db.mods := rfl

theorem deletePack_pack_files (db : Store) (fid : Nat) :
    (deletePack db fid).pack_files =
      db.pack_files.filter (fun r => r.id_modfile != fid) := rfl

theorem insertPack_pack_files (db : Store) (rows : List PackFileRow) :
    (insertPack db rows).pack_files = db.pack_files ++ rows := rfl

theorem getStoredId_eq_of_mods (db db' : Store) (h : db.mods = db'.mods)
    (mid : Nat) : getStoredId db mid = getStoredId db' mid := by
  unfold getStoredId
  rw [h]

theorem find?_append_mods (l₁ l₂ : List ModRow) (p : ModRow → Bool) :
    (l₁ ++ l₂).find? p =
      match l₁.find? p with
      | some r => some r
      | none => l₂.find? p := by
  induction l₁ with
  | nil => rfl
  | cons r t ih =>
    by_cases hr : p r = true
    · simp [List.find?_cons, hr]
    · simp only [Bool.not_eq_true] at hr
      simp [List.find?_cons, hr, ih]

theorem storedIdIn_map_upd (l : List ModRow) (m : ModRecord) :
    storedIdIn (l.map fun r =>
      if r.id_mod = m.id then
        { r with name := m.name, name_id := m.name_id,
                 summary := m.summary, description := m.summary }
      else r) m.id = storedIdIn l m.id := by
  induction l with
  | nil => rfl
  | cons r t ih =>
    by_cases hr : r.id_mod = m.id
    · simp [storedIdIn, List.find?_cons, hr]
    · simp only [List.map_cons, if_neg hr]
      simp only [storedIdIn, List.find?_cons]
      have h1 : decide (r.id_mod = m.id) = false := by simp [hr]
      rw [h1]
      exact ih

theorem storedIdIn_append_not_found (l : List ModRow) (mid : Nat)
    (h : ∀ r ∈ l, r.id_mod ≠ mid) (l₂ : List ModRow) :
    storedIdIn (l ++ l₂) mid = storedIdIn l₂ mid := by
  induction l with
  | nil => rfl
  | cons r t ih =>
    have hr : r.id_mod ≠ mid := h r (List.mem_cons_self r t)
    show storedIdIn (r :: (t ++ l₂)) mid = _
    simp only [storedIdIn, List.find?_cons]
    have h1 : decide (r.id_mod = mid) = false := by simp [hr]
    rw [h1]
    exact ih (fun x hx => h x (List.mem_cons_of_mem r hx))

theorem storedIdIn_map_set (l : List ModRow) (mid : Nat) (v : Option Nat) :
    storedIdIn (l.map fun r =>
      if r.id_mod = mid then { r with id_modfile := v } else r) mid =
      (match l.find? (fun r => r.id_mod = mid) with
       | some _ => v
       | none => none) := by
  induction l with
  | nil => rfl
  | cons r t ih =>
    by_cases hr : r.id_mod = mid
    · simp [storedIdIn, List.find?_cons, hr]
    · simp only [List.map_cons, if_neg hr]
      simp only [storedIdIn, List.find?_cons]
      have h1 : decide (r.id_mod = mid) = false := by simp [hr]
      rw [h1]
      exact ih

/-- The mod-row upsert does not touch the stored modfile id of the
upserted row (the update branch leaves the column alone, the insert
branch writes null). -/
theorem getStoredId_upsertMod (db : Store) (m : ModRecord) :
    getStoredId (upsertMod db m) m.id = getStoredId db m.id := by
  unfold upsertMod
  split
  · next hany =>
    exact storedIdIn_map_upd db.mods m
  · next hany =>
    have hall : ∀ r ∈ db.mods, r.id_mod ≠ m.id := by
      intro r hr heq
      exact hany (List.any_eq_true.mpr ⟨r, hr, by simp [heq]⟩)
    have h2 := storedIdIn_append_not_found db.mods m.id hall
      [({ id_mod := m.id, name := m.name, name_id := m.name_id,
          summary := m.summary, description := m.description,
          id_modfile := none } : ModRow)]
    have h4 : storedIdIn
        [({ id_mod := m.id, name := m.name, name_id := m.name_id,
            summary := m.summary, description := m.description,
            id_modfile := none } : ModRow)] m.id = none := by
      simp [storedIdIn, List.find?_cons]
    have h3 : storedIdIn db.mods m.id = none := by
      unfold storedIdIn
      rw [List.find?_eq_none.mpr (by intro x hx; simpa using hall x hx)]
    exact (h2.trans h4).trans h3.symm

/-- After the upsert a mod row with the given id exists. -/
theorem upsertMod_row_exists (db : Store) (m : ModRecord) :
    ∃ r, r ∈ (upsertMod db m).mods ∧ r.id_mod = m.id := by
  unfold upsertMod
  split
  · next hany =>
    rcases List.any_eq_true.mp hany with ⟨r, hr, hrid⟩
    have hrid' : r.id_mod = m.id := by simpa using hrid
    refine ⟨({ r with
               name := m.name, name_id := m.name_id,
               summary := m.summary, description := m.summary } : ModRow),
            ?_, hrid'⟩
    show _ ∈ db.mods.map _
    apply List.mem_map.mpr
    refine ⟨r, hr, ?_⟩
    rw [if_pos hrid']
  · next hany =>
    exact ⟨_, List.mem_append_right _ (List.mem_cons_self _ _), rfl⟩

theorem getStoredId_setStoredId_of_mem (db : Store) (mid : Nat)
    (v : Option Nat) (hmem : ∃ r, r ∈ db.mods ∧ r.id_mod = mid) :
    getStoredId (setStoredId db mid v) mid = v := by
  have h := storedIdIn_map_set db.mods mid v
  rcases hmem with ⟨r0, hr0, hid⟩
  cases hf : db.mods.find? (fun r => r.id_mod = mid) with
  | some r =>
    rw [hf] at h
    exact h
  | none =>
    have := List.find?_eq_none.mp hf r0 hr0
    simp [hid] at this

theorem getStoredId_setStoredId_none (db : Store) (mid : Nat) :
    getStoredId (setStoredId db mid none) mid = none := by
  have h := storedIdIn_map_set db.mods mid none
  cases hf : db.mods.find? (fun r => r.id_mod = mid) with
  | some r =>
    rw [hf] at h
    exact h
  | none =>
    rw [hf] at h
    exact h

/-! ## Filter lemmas for pack_file replacement -/

theorem filter_ne_idem (l : List PackFileRow) (fid : Nat) :
    ((l.filter fun r => r.id_modfile != fid).filter
      fun r => r.id_modfile != fid) =
      (l.filter fun r => r.id_modfile != fid) := by
  rw [List.filter_filter]
  apply List.filter_congr
  intro a _
  rw [Bool.and_self]

theorem filter_eq_after_ne (l : List PackFileRow) (fid : Nat) :
    ((l.filter fun r => r.id_modfile != fid).filter
      fun r => r.id_modfile == fid) = [] := by
  rw [List.filter_filter]
  apply List.filter_eq_nil_iff.mpr
  intro a _
  simp [bne]

theorem filter_rows_own_id (rows : List PackFileRow) (fid : Nat)
    (h : ∀ r ∈ rows, r.id_modfile = fid) :
    (rows.filter fun r => r.id_modfile == fid) = rows := by
  apply List.filter_eq_self.mpr
  intro a ha
  simp [h a ha]

theorem filter_rows_own_id_ne (rows : List PackFileRow) (fid : Nat)
    (h : ∀ r ∈ rows, r.id_modfile = fid) :
    (rows.filter fun r => r.id_modfile != fid) = [] := by
  apply List.filter_eq_nil_iff.mpr
  intro a ha
  simp [h a ha]

/-- The delete+index+insert block always commits: an indexing failure is
recorded and leaves the deletion in place, a success fully replaces the
rows of the file id, and nothing else in the store is touched. -/
theorem indexIntoTx_ok (db : Store) (fid : Nat) (arch : Archive) (mid : Nat)
    (reports : List (Nat × PakError)) :
    ∃ db' reps, indexIntoTx db fid arch mid reports = Except.ok (db', reps) ∧
      db'.mods = db.mods ∧ db'.modfiles = db.modfiles ∧
      (∃ t, reps = reports ++ t) ∧
      ((db'.pack_files.filter fun r => r.id_modfile != fid) =
        (db.pack_files.filter fun r => r.id_modfile != fid)) ∧
      ((db'.pack_files.filter fun r => r.id_modfile == fid) =
        (match list_zip_files arch with
         | Except.ok files => (mapOpt (mkPackFileRow fid) files).getD []
         | Except.error _ => [])) := by
  cases hz : list_zip_files arch with
  | error e =>
    refine ⟨deletePack db fid, reports ++ [(mid, e)], ?_, rfl, rfl,
      ⟨[(mid, e)], rfl⟩, ?_, ?_⟩
    · simp only [indexIntoTx, hz]
    · rw [deletePack_pack_files]
      exact filter_ne_idem db.pack_files fid
    · rw [deletePack_pack_files]
      exact filter_eq_after_ne db.pack_files fid
  | ok files =>
    rcases rows_some fid arch files hz with ⟨rows, hrows⟩
    have hids : ∀ r ∈ rows, r.id_modfile = fid := by
      intro r hr
      rcases mapOpt_mem _ _ _ hrows r hr with ⟨p, _, hp⟩
      exact mkPackFileRow_id fid p r hp
    refine ⟨insertPack (deletePack db fid) rows, reports, ?_, rfl, rfl,
      ⟨[], by simp⟩, ?_, ?_⟩
    · simp only [indexIntoTx, hz, hrows]
    · rw [insertPack_pack_files, deletePack_pack_files, List.filter_append,
        filter_ne_idem, filter_rows_own_id_ne rows fid hids, List.append_nil]
    · rw [insertPack_pack_files, deletePack_pack_files, List.filter_append,
        filter_eq_after_ne, filter_rows_own_id rows fid hids, List.nil_append]
      show rows = (mapOpt (mkPackFileRow fid) files).getD []
      rw [hrows]
      rfl

/-- After a successful update_mod run the stored modfile id equals the
remote one. -/
theorem getStoredId_after_ok (env : Env) (s : SyncState) (m : ModRecord)
    (s₁ : SyncState) (h : update_mod env s m = Except.ok s₁) :
    getStoredId s₁.db m.id = m.modfile.map (fun f => f.id) := by
  by_cases hcond : m.modfile.map (fun f => f.id) =
      getStoredId (upsertMod s.db m) m.id
  · simp only [update_mod] at h
    rw [if_pos hcond] at h
    injection h with h'
    subst h'
    exact hcond.symm
  · simp only [update_mod] at h
    rw [if_neg hcond] at h
    cases hm : m.modfile with
    | none =>
      simp only [hm] at h
      injection h with h'
      subst h'
      exact getStoredId_setStoredId_none _ m.id
    | some file =>
      simp only [hm] at h
      have hset : getStoredId (setStoredId
          (upsertModfile (upsertMod s.db m) m.id file) m.id
          (some file.id)) m.id = some file.id := by
        apply getStoredId_setStoredId_of_mem
        rw [upsertModfile_mods]
        exact upsertMod_row_exists s.db m
      cases hlook : lookupA s.fs file.md5 with
      | some arch =>
        simp only [hlook] at h
        rcases indexIntoTx_ok (setStoredId
            (upsertModfile (upsertMod s.db m) m.id file) m.id
            (some file.id)) file.id arch m.id s.reports with
          ⟨db', reps, hidx, hmods, _, _, _, _⟩
        simp only [hidx] at h
        injection h with h'
        subst h'
        show getStoredId db' m.id = some file.id
        rw [getStoredId_eq_of_mods db' _ hmods]
        exact hset
      | none =>
        simp only [hlook] at h
        cases hdl : env.download file.id with
        | none =>
          simp only [hdl] at h
          exact Except.noConfusion h
        | some arch =>
          simp only [hdl] at h
          rcases indexIntoTx_ok (setStoredId
              (upsertModfile (upsertMod s.db m) m.id file) m.id
              (some file.id)) file.id arch m.id s.reports with
            ⟨db', reps, hidx, hmods, _, _, _, _⟩
          simp only [hidx] at h
          injection h with h'
          subst h'
          show getStoredId db' m.id = some file.id
          rw [getStoredId_eq_of_mods db' _ hmods]
          exact hset

/-! ## C6: unchanged file id is a no-op, and re-running is idempotent -/

/-- C6: when the remote modfile id equals the stored one, update_mod
only refreshes the mod row (no modfile upsert, no download, no pack_file
change); and after any successful update_mod run, running it again on the
same record is such a no-op, so no second download occurs and the
pack_file rows stay unchanged. -/
theorem sync_unchanged_idempotent (env : Env) (s : SyncState)
    (m : ModRecord) :
    (m.modfile.map (fun f => f.id) = getStoredId (upsertMod s.db m) m.id →
      update_mod env s m = Except.ok { s with db := upsertMod s.db m } ∧
      (upsertMod s.db m).modfiles = s.db.modfiles ∧
      (upsertMod s.db m).pack_files = s.db.pack_files) ∧
    (∀ s₁, update_mod env s m = Except.ok s₁ →
      update_mod env s₁ m = Except.ok { s₁ with db := upsertMod s₁.db m } ∧
      (upsertMod s₁.db m).modfiles = s₁.db.modfiles ∧
      (upsertMod s₁.db m).pack_files = s₁.db.pack_files) := by
  constructor
  · intro hcond
    refine ⟨?_, upsertMod_modfiles s.db m, upsertMod_pack_files s.db m⟩
    simp only [update_mod]
    rw [if_pos hcond]
  · intro s₁ h1
    have hst : getStoredId s₁.db m.id = m.modfile.map (fun f => f.id) :=
      getStoredId_after_ok env s m s₁ h1
    have hcond : m.modfile.map (fun f => f.id) =
        getStoredId (upsertMod s₁.db m) m.id := by
      rw [getStoredId_upsertMod, hst]
    refine ⟨?_, upsertMod_modfiles s₁.db m, upsertMod_pack_files s₁.db m⟩
    simp only [update_mod]
    rw [if_pos hcond]

/-- Witness for C6: a fresh mod with no modfile leaves the stored id null,
so the second run is the proven no-op; both halves are exercised. -/
theorem sync_unchanged_idempotent_witness :
    update_mod ⟨fun _ => none⟩
      { db := { mods := [], modfiles := [], pack_files := [] },
        fs := [], downloads := [], reports := [] }
      { id := 1, name := "n", name_id := "s", summary := "su",
        description := "de", modfile := none } =
      Except.ok { db := upsertMod { mods := [], modfiles := [], pack_files := [] }
                    { id := 1, name := "n", name_id := "s", summary := "su",
                      description := "de", modfile := none },
                  fs := [], downloads := [], reports := [] } ∧
    update_mod ⟨fun _ => none⟩
      { db := { mods := [{ id_mod := 1, name := "n", name_id := "s",
                           summary := "su", description := "de",
                           id_modfile := none }],
                modfiles := [], pack_files := [] },
        fs := [], downloads := [], reports := [] }
      { id := 1, name := "n", name_id := "s", summary := "su",
        description := "de", modfile := none } =
      Except.ok { db := upsertMod
                    { mods := [{ id_mod := 1, name := "n", name_id := "s",
                                 summary := "su", description := "de",
                                 id_modfile := none }],
                      modfiles := [], pack_files := [] }
                    { id := 1, name := "n", name_id := "s", summary := "su",
                      description := "de", modfile := none },
                  fs := [], downloads := [], reports := [] } :=
  ⟨((sync_unchanged_idempotent ⟨fun _ => none⟩
      { db := { mods := [], modfiles := [], pack_files := [] },
        fs := [], downloads := [], reports := [] }
      { id := 1, name := "n", name_id := "s", summary := "su",
        description := "de", modfile := none }).1 rfl).1,
   ((sync_unchanged_idempotent ⟨fun _ => none⟩
      { db := { mods := [], modfiles := [], pack_files := [] },
        fs := [], downloads := [], reports := [] }
      { id := 1, name := "n", name_id := "s", summary := "su",
        description := "de", modfile := none }).2
     { db := { mods := [{ id_mod := 1, name := "n", name_id := "s",
                          summary := "su", description := "de",
                          id_modfile := none }],
               modfiles := [], pack_files := [] },
       fs := [], downloads := [], reports := [] } rfl).1⟩

/-! ## C7 (amended): replacement for the new file id, download only when
the archive is absent -/

/-- C7 as amended: when the current file id changes to a file whose
archive is available (already local, or downloadable), update_mod
succeeds, makes exactly one download attempt when the local archive is
absent and none when it is present, replaces the pack_file rows of the
new file id with the rows from a fresh indexing, and leaves the rows of
every other file id (the old id included) untouched. -/
theorem sync_changed_file_replacement (env : Env) (s : SyncState)
    (m : ModRecord) (file : FileRecord) (hm : m.modfile = some file)
    (hch : ¬(m.modfile.map (fun f => f.id) =
      getStoredId (upsertMod s.db m) m.id))
    (arch : Archive)
    (harch : lookupA s.fs file.md5 = some arch ∨
      (lookupA s.fs file.md5 = none ∧ env.download file.id = some arch)) :
    ∃ s', update_mod env s m = Except.ok s' ∧
      s'.downloads = s.downloads ++
        (match lookupA s.fs file.md5 with
         | some _ => []
         | none => [file.id]) ∧
      ((s'.db.pack_files.filter fun r => r.id_modfile != file.id) =
        (s.db.pack_files.filter fun r => r.id_modfile != file.id)) ∧
      ((s'.db.pack_files.filter fun r => r.id_modfile == file.id) =
        (match list_zip_files arch with
         | Except.ok files => (mapOpt (mkPackFileRow file.id) files).getD []
         | Except.error _ => [])) := by
  have hpack2 : (setStoredId (upsertModfile (upsertMod s.db m) m.id file)
      m.id (some file.id)).pack_files = s.db.pack_files := by
    rw [setStoredId_pack_files, upsertModfile_pack_files, upsertMod_pack_files]
  rcases indexIntoTx_ok (setStoredId (upsertModfile (upsertMod s.db m) m.id
      file) m.id (some file.id)) file.id arch m.id s.reports with
    ⟨db', reps, hidx, _, _, _, hfne, hfeq⟩
  rw [hpack2] at hfne
  rcases harch with hlook | ⟨hlook, hdl⟩
  · refine ⟨{ db := db'
              fs := s.fs
              downloads := s.downloads
              reports := reps }, ?_, ?_, hfne, hfeq⟩
    · simp only [update_mod]
      rw [if_neg hch]
      simp only [hm, hlook, hidx]
    · simp [hlook]
  · refine ⟨{ db := db'
              fs := putA s.fs file.md5 arch
              downloads := s.downloads ++ [file.id]
              reports := reps },
        ?_, ?_, hfne, hfeq⟩
    · simp only [update_mod]
      rw [if_neg hch]
      simp only [hm, hlook, hdl, hidx]
    · simp [hlook]

/-- Witness for C7's amended theorem: a fresh mod with an absent archive
downloads once; the empty downloaded archive fails indexing so the new
id's row set is empty and nothing else is touched. -/
theorem sync_changed_file_replacement_witness :
    ∃ s', update_mod ⟨fun _ => some []⟩
        { db := { mods := [], modfiles := [], pack_files := [] },
          fs := [], downloads := [], reports := [] }
        { id := 1, name := "n", name_id := "s", summary := "su",
          description := "de",
          modfile := some { id := 10, date_added := 0, md5 := "h",
                            filename := "f", version := none,
                            changelog := none } } = Except.ok s' ∧
      s'.downloads = [10] ∧
      ((s'.db.pack_files.filter fun r => r.id_modfile != 10) = []) ∧
      ((s'.db.pack_files.filter fun r => r.id_modfile == 10) = []) :=
  sync_changed_file_replacement ⟨fun _ => some []⟩
    { db := { mods := [], modfiles := [], pack_files := [] },
      fs := [], downloads := [], reports := [] }
    { id := 1, name := "n", name_id := "s", summary := "su",
      description := "de",
      modfile := some { id := 10, date_added := 0, md5 := "h",
                        filename := "f", version := none,
                        changelog := none } }
    { id := 10, date_added := 0, md5 := "h", filename := "f",
      version := none, changelog := none }
    rfl (by decide) [] (Or.inr ⟨rfl, rfl⟩)

/-! ## C2 (amended): commit policy around indexing failures -/

/-- C2 as amended: in sync_one an indexing failure still commits the
Mod/File metadata changes, records the failure, and leaves the file's
PathEntry set empty; in the reconciler an indexing failure is recorded
and skips the file, leaving its previous rows unchanged while processing
continues with the rest. -/
theorem index_failure_commit_policy (env : Env) (s : SyncState)
    (m : ModRecord) (file : FileRecord) (arch : Archive) (e : PakError)
    (fs : Filesys) (mf : ModfileRow) (rest : List ModfileRow)
    (pf : List PackFileRow) (rep : List (Nat × PakError)) (e' : PakError) :
    (m.modfile = some file →
     ¬(m.modfile.map (fun f => f.id) =
       getStoredId (upsertMod s.db m) m.id) →
     lookupA s.fs file.md5 = some arch →
     list_zip_files arch = Except.error e →
     ∃ s', update_mod env s m = Except.ok s' ∧
       ((s'.db.pack_files.filter fun r => r.id_modfile == file.id) = []) ∧
       s'.db.modfiles = (upsertModfile (upsertMod s.db m) m.id file).modfiles ∧
       getStoredId s'.db m.id = some file.id ∧
       s'.reports = s.reports ++ [(m.id, e)]) ∧
    (get_pack_files fs mf.id_modfile mf.hash_md5 = some (Except.error e') →
     rebuild_go fs (mf :: rest) pf rep =
       rebuild_go fs rest pf (rep ++ [(mf.id_modfile, e')])) := by
  constructor
  · intro hm hch hlook hbad
    have hidx : indexIntoTx (setStoredId (upsertModfile (upsertMod s.db m)
        m.id file) m.id (some file.id)) file.id arch m.id s.reports =
        Except.ok (deletePack (setStoredId (upsertModfile (upsertMod s.db m)
          m.id file) m.id (some file.id)) file.id,
          s.reports ++ [(m.id, e)]) := by
      simp only [indexIntoTx, hbad]
    refine ⟨{ db := deletePack (setStoredId (upsertModfile
                (upsertMod s.db m) m.id file) m.id (some file.id)) file.id
              fs := s.fs
              downloads := s.downloads
              reports := s.reports ++ [(m.id, e)] }, ?_, ?_, ?_, ?_, rfl⟩
    · simp only [update_mod]
      rw [if_neg hch]
      simp only [hm, hlook, hidx]
    · show ((deletePack (setStoredId (upsertModfile (upsertMod s.db m)
        m.id file) m.id (some file.id)) file.id).pack_files.filter
        fun r => r.id_modfile == file.id) = []
      rw [deletePack_pack_files]
      exact filter_eq_after_ne _ _
    · show (deletePack (setStoredId (upsertModfile (upsertMod s.db m)
        m.id file) m.id (some file.id)) file.id).modfiles = _
      rfl
    · show getStoredId (deletePack (setStoredId (upsertModfile
        (upsertMod s.db m) m.id file) m.id (some file.id)) file.id) m.id =
        some file.id
      have hmods : (deletePack (setStoredId (upsertModfile
          (upsertMod s.db m) m.id file) m.id (some file.id))
          file.id).mods = (setStoredId (upsertModfile (upsertMod s.db m)
          m.id file) m.id (some file.id)).mods := rfl
      rw [getStoredId_eq_of_mods _ _ hmods]
      apply getStoredId_setStoredId_of_mem
      rw [upsertModfile_mods]
      exact upsertMod_row_exists s.db m
  · intro hfail
    simp only [rebuild_go, hfail]

/-- Witness for C2's amended theorem: a changed mod whose present local
archive is empty (indexing fails) commits metadata with an empty row set;
a reconciler step over a missing archive keeps the old rows and records
the failure. -/
theorem index_failure_commit_policy_witness :
    (∃ s', update_mod ⟨fun _ => none⟩
        { db := { mods := [], modfiles := [], pack_files := [] },
          fs := [("h", [])], downloads := [], reports := [] }
        { id := 1, name := "n", name_id := "s", summary := "su",
          description := "de",
          modfile := some { id := 10, date_added := 0, md5 := "h",
                            filename := "f", version := none,
                            changelog := none } } = Except.ok s' ∧
      ((s'.db.pack_files.filter fun r => r.id_modfile == 10) = []) ∧
      s'.db.modfiles = (upsertModfile (upsertMod
        { mods := [], modfiles := [], pack_files := [] }
        { id := 1, name := "n", name_id := "s", summary := "su",
          description := "de",
          modfile := some { id := 10, date_added := 0, md5 := "h",
                            filename := "f", version := none,
                            changelog := none } }) 1
        { id := 10, date_added := 0, md5 := "h", filename := "f",
          version := none, changelog := none }).modfiles ∧
      getStoredId s'.db 1 = some 10 ∧
      s'.reports = [(1, PakError.MissingPakFile)]) ∧
    (rebuild_go []
        [{ id_modfile := 5, id_mod := 1, date_added := 0, hash_md5 := "m",
           filename := "f", version := none, changelog := none }]
        [{ id_modfile := 5, path := "X.y", path_no_extension := "X.",
           extension := some "y", name := some "X" }] [] =
      rebuild_go [] []
        [{ id_modfile := 5, path := "X.y", path_no_extension := "X.",
           extension := some "y", name := some "X" }]
        [(5, PakError.IoError)]) :=
  ⟨(index_failure_commit_policy ⟨fun _ => none⟩
      { db := { mods := [], modfiles := [], pack_files := [] },
        fs := [("h", [])], downloads := [], reports := [] }
      { id := 1, name := "n", name_id := "s", summary := "su",
        description := "de",
        modfile := some { id := 10, date_added := 0, md5 := "h",
                          filename := "f", version := none,
                          changelog := none } }
      { id := 10, date_added := 0, md5 := "h", filename := "f",
        version := none, changelog := none }
      [] PakError.MissingPakFile []
      { id_modfile := 5, id_mod := 1, date_added := 0, hash_md5 := "m",
        filename := "f", version := none, changelog := none }
      [] [] [] PakError.IoError).1 rfl (by decide) rfl rfl,
   (index_failure_commit_policy ⟨fun _ => none⟩
      { db := { mods := [], modfiles := [], pack_files := [] },
        fs := [("h", [])], downloads := [], reports := [] }
      { id := 1, name := "n", name_id := "s", summary := "su",
        description := "de",
        modfile := some { id := 10, date_added := 0, md5 := "h",
                          filename := "f", version := none,
                          changelog := none } }
      { id := 10, date_added := 0, md5 := "h", filename := "f",
        version := none, changelog := none }
      [] PakError.MissingPakFile []
      { id_modfile := 5, id_mod := 1, date_added := 0, hash_md5 := "m",
        filename := "f", version := none, changelog := none }
      []
      [{ id_modfile := 5, path := "X.y", path_no_extension := "X.",
         extension := some "y", name := some "X" }]
      [] PakError.IoError).2 rfl⟩

/-! ## C1 (amended): only download failures abort the batch -/

/-- update_mod succeeds whenever the catalog client can stream every
requested file: indexing failures (and any archive content) are recorded
without failing, and the report log only grows. -/
theorem update_mod_ok_of_download_total (env : Env) (s : SyncState)
    (m : ModRecord) (h : ∀ i, (env.download i).isSome = true) :
    ∃ s', update_mod env s m = Except.ok s' ∧
      ∃ t, s'.reports = s.reports ++ t := by
  by_cases hcond : m.modfile.map (fun f => f.id) =
      getStoredId (upsertMod s.db m) m.id
  · refine ⟨{ s with db := upsertMod s.db m }, ?_, [], by simp⟩
    simp only [update_mod]
    rw [if_pos hcond]
  · cases hm : m.modfile with
    | none =>
      refine ⟨{ s with db := setStoredId (upsertMod s.db m) m.id none },
        ?_, [], by simp⟩
      simp only [update_mod]
      rw [if_neg hcond]
      simp only [hm]
    | some file =>
      cases hlook : lookupA s.fs file.md5 with
      | some arch =>
        rcases indexIntoTx_ok (setStoredId (upsertModfile (upsertMod s.db m)
            m.id file) m.id (some file.id)) file.id arch m.id s.reports with
          ⟨db', reps, hidx, _, _, ⟨t, ht⟩, _, _⟩
        refine ⟨{ db := db'
                  fs := s.fs
                  downloads := s.downloads
                  reports := reps }, ?_, t, ht⟩
        simp only [update_mod]
        rw [if_neg hcond]
        simp only [hm, hlook, hidx]
      | none =>
        have hd := h file.id
        cases hdl : env.download file.id with
        | none =>
          rw [hdl] at hd
          cases hd
        | some arch =>
          rcases indexIntoTx_ok (setStoredId (upsertModfile (upsertMod s.db m)
              m.id file) m.id (some file.id)) file.id arch m.id s.reports with
            ⟨db', reps, hidx, _, _, ⟨t, ht⟩, _, _⟩
          refine ⟨{ db := db'
                    fs := putA s.fs file.md5 arch
                    downloads := s.downloads ++ [file.id]
                    reports := reps },
              ?_, t, ht⟩
          simp only [update_mod]
          rw [if_neg hcond]
          simp only [hm, hlook, hdl, hidx]

/-- C1 as amended: archive-indexing failures while syncing a mod are
recorded and iteration continues over the rest of the batch; but
failures are isolated only on that path — when the catalog client can
stream every file, the whole batch completes with the failures
accumulated in the report log, whereas a download transport failure
aborts the batch (see the counterexample). -/
theorem get_mods_continues_without_download_failure (env : Env)
    (s : SyncState) (ms : List ModRecord)
    (h : ∀ i, (env.download i).isSome = true) :
    ∃ s', get_mods env s ms = Except.ok s' ∧
      ∃ t, s'.reports = s.reports ++ t := by
  induction ms generalizing s with
  | nil => exact ⟨s, rfl, [], by simp⟩
  | cons m rest ih =>
    rcases update_mod_ok_of_download_total env s m h with ⟨s₁, h1, t1, ht1⟩
    rcases ih s₁ with ⟨s₂, h2, t2, ht2⟩
    refine ⟨s₂, ?_, t1 ++ t2, ?_⟩
    · simp only [get_mods, h1]
      exact h2
    · rw [ht2, ht1, List.append_assoc]

/-- Witness for C1's amended theorem: with a client that always streams
(an empty, hence unindexable, archive) the two-mod batch completes and
the indexing failure is only reported. -/
theorem get_mods_continues_witness :
    ∃ s', get_mods ⟨fun _ => some []⟩
        { db := { mods := [], modfiles := [], pack_files := [] },
          fs := [], downloads := [], reports := [] }
        [{ id := 1, name := "a", name_id := "a", summary := "s",
           description := "d",
           modfile := some { id := 10, date_added := 0, md5 := "h",
                             filename := "f", version := none,
                             changelog := none } },
         { id := 2, name := "b", name_id := "b", summary := "s",
           description := "d", modfile := none }] = Except.ok s' ∧
      ∃ t, s'.reports = [] ++ t :=
  get_mods_continues_without_download_failure ⟨fun _ => some []⟩
    { db := { mods := [], modfiles := [], pack_files := [] },
      fs := [], downloads := [], reports := [] }
    [{ id := 1, name := "a", name_id := "a", summary := "s",
       description := "d",
       modfile := some { id := 10, date_added := 0, md5 := "h",
                         filename := "f", version := none,
                         changelog := none } },
     { id := 2, name := "b", name_id := "b", summary := "s",
       description := "d", modfile := none }]
    (fun _ => rfl)

/-! ## C8: reconciler isolation -/

theorem get_pack_files_lookup_none (fs : Filesys) (id : Nat) (md5 : String)
    (hl : lookupA fs md5 = none) :
    get_pack_files fs id md5 = some (Except.error PakError.IoError) := by
  unfold get_pack_files
  rw [hl]

theorem get_pack_files_lookup_some (fs : Filesys) (id : Nat) (md5 : String)
    (a : Archive) (hl : lookupA fs md5 = some a) :
    get_pack_files fs id md5 =
      (match list_zip_files a with
       | Except.error e => some (Except.error e)
       | Except.ok files =>
         Option.map Except.ok (mapOpt (mkPackFileRow id) files)) := by
  unfold get_pack_files
  rw [hl]

/-- get_pack_files never panics: row construction is total on indexing
outputs. -/
theorem get_pack_files_some (fs : Filesys) (id : Nat) (md5 : String) :
    ∃ res, get_pack_files fs id md5 = some res := by
  cases hl : lookupA fs md5 with
  | none => exact ⟨Except.error PakError.IoError,
      get_pack_files_lookup_none fs id md5 hl⟩
  | some a =>
    rw [get_pack_files_lookup_some fs id md5 a hl]
    cases hz : list_zip_files a with
    | error e => exact ⟨Except.error e, rfl⟩
    | ok files =>
      rcases rows_some id a files hz with ⟨rows, hrows⟩
      refine ⟨Except.ok rows, ?_⟩
      show Option.map Except.ok (mapOpt (mkPackFileRow id) files) =
        some (Except.ok rows)
      rw [hrows]
      rfl

/-- Rows returned by a successful get_pack_files all carry the file id. -/
theorem get_pack_files_ok_ids (fs : Filesys) (id : Nat) (md5 : String)
    (rows : List PackFileRow)
    (h : get_pack_files fs id md5 = some (Except.ok rows)) :
    ∀ r ∈ rows, r.id_modfile = id := by
  cases hl : lookupA fs md5 with
  | none =>
    rw [get_pack_files_lookup_none fs id md5 hl] at h
    injection h with h'
    exact Except.noConfusion h'
  | some a =>
    rw [get_pack_files_lookup_some fs id md5 a hl] at h
    cases hz : list_zip_files a with
    | error e =>
      rw [hz] at h
      have h2 : some (Except.error e) =
          some (Except.ok rows : Except PakError (List PackFileRow)) := h
      injection h2 with h'
      exact Except.noConfusion h'
    | ok files =>
      rw [hz] at h
      have h2 : Option.map Except.ok (mapOpt (mkPackFileRow id) files) =
          some (Except.ok rows) := h
      cases hrows : mapOpt (mkPackFileRow id) files with
      | none =>
        rw [hrows] at h2
        exact Option.noConfusion h2
      | some rows' =>
        rw [hrows] at h2
        injection h2 with h'
        injection h' with h''
        subst h''
        intro r hr
        rcases mapOpt_mem _ _ _ hrows r hr with ⟨p, _, hp⟩
        exact mkPackFileRow_id id p r hp

/-- The rebuild loop never aborts: every file either replaces its rows or
is reported and skipped. -/
theorem rebuild_go_total (fs : Filesys) (mfs : List ModfileRow)
    (pf : List PackFileRow) (rep : List (Nat × PakError)) :
    ∃ pr, rebuild_go fs mfs pf rep = some pr := by
  induction mfs generalizing pf rep with
  | nil => exact ⟨(pf, rep), rfl⟩
  | cons mf rest ih =>
    rcases get_pack_files_some fs mf.id_modfile mf.hash_md5 with ⟨res, hres⟩
    cases res with
    | ok rows =>
      rcases ih ((pf.filter fun r => r.id_modfile != mf.id_modfile) ++ rows)
        rep with ⟨pr, hpr⟩
      exact ⟨pr, by simp only [rebuild_go, hres]; exact hpr⟩
    | error e =>
      rcases ih pf (rep ++ [(mf.id_modfile, e)]) with ⟨pr, hpr⟩
      exact ⟨pr, by simp only [rebuild_go, hres]; exact hpr⟩

/-- The rebuild loop over a concatenation runs the first part and then
the second from the resulting state. -/
theorem rebuild_go_append (fs : Filesys) (l₁ l₂ : List ModfileRow)
    (pf : List PackFileRow) (rep : List (Nat × PakError)) :
    rebuild_go fs (l₁ ++ l₂) pf rep =
      match rebuild_go fs l₁ pf rep with
      | some pr => rebuild_go fs l₂ pr.1 pr.2
      | none => none := by
  induction l₁ generalizing pf rep with
  | nil => rfl
  | cons mf rest ih =>
    show rebuild_go fs (mf :: (rest ++ l₂)) pf rep = _
    rcases get_pack_files_some fs mf.id_modfile mf.hash_md5 with ⟨res, hres⟩
    cases res with
    | ok rows =>
      simp only [rebuild_go, hres]
      exact ih _ _
    | error e =>
      simp only [rebuild_go, hres]
      exact ih _ _

/-- Frame property of the rebuild loop: files whose id differs from fid
never change the pack_file rows of fid, and the report log only grows. -/
theorem rebuild_go_frame (fs : Filesys) (mfs : List ModfileRow) (fid : Nat)
    (hid : ∀ mf ∈ mfs, mf.id_modfile ≠ fid) (pf : List PackFileRow)
    (rep : List (Nat × PakError)) (pr : List PackFileRow × List (Nat × PakError))
    (h : rebuild_go fs mfs pf rep = some pr) :
    (pr.1.filter fun r => r.id_modfile == fid) =
      (pf.filter fun r => r.id_modfile == fid) ∧
    ∃ t, pr.2 = rep ++ t := by
  induction mfs generalizing pf rep with
  | nil =>
    simp only [rebuild_go, Option.some.injEq] at h
    subst h
    exact ⟨rfl, [], by simp⟩
  | cons mf rest ih =>
    have hmf : mf.id_modfile ≠ fid := hid mf (List.mem_cons_self mf rest)
    have hrest : ∀ x ∈ rest, x.id_modfile ≠ fid :=
      fun x hx => hid x (List.mem_cons_of_mem mf hx)
    rcases get_pack_files_some fs mf.id_modfile mf.hash_md5 with ⟨res, hres⟩
    cases res with
    | ok rows =>
      simp only [rebuild_go, hres] at h
      have hids : ∀ r ∈ rows, r.id_modfile = mf.id_modfile :=
        get_pack_files_ok_ids fs mf.id_modfile mf.hash_md5 rows hres
      rcases ih hrest _ _ h with ⟨h1, t, h2⟩
      refine ⟨?_, t, h2⟩
      rw [h1, List.filter_append]
      have hrows0 : (rows.filter fun r => r.id_modfile == fid) = [] := by
        apply List.filter_eq_nil_iff.mpr
        intro a ha
        simp [hids a ha, hmf]
      rw [hrows0, List.append_nil, List.filter_filter]
      apply List.filter_congr
      intro a _
      by_cases ha : a.id_modfile = fid
      · have : (fid != mf.id_modfile) = true := by
          simp [bne]
          exact fun hh => hmf hh.symm
        simp [ha, this]
      · simp [ha]
    | error e =>
      simp only [rebuild_go, hres] at h
      rcases ih hrest _ _ h with ⟨h1, t, h2⟩
      refine ⟨h1, (mf.id_modfile, e) :: t, ?_⟩
      rw [h2, List.append_assoc]
      rfl

/-- C8: the reconciler processes each File independently: it always
completes, a File whose archive indexes successfully has its pack_file
rows replaced by exactly the fresh indexing result, and a File whose
archive is missing or fails to index keeps its previous rows untouched
with the failure reported — regardless of what happens to the other
files. -/
theorem rebuild_all_isolates_failures (fs : Filesys) (db : Store)
    (hu : (db.modfiles.map fun r => r.id_modfile).Nodup)
    (mf : ModfileRow) (hmf : mf ∈ db.modfiles) :
    ∃ db' reports, update_pack_files_local fs db = some (db', reports) ∧
      (∀ rows, get_pack_files fs mf.id_modfile mf.hash_md5 =
          some (Except.ok rows) →
        (db'.pack_files.filter fun r => r.id_modfile == mf.id_modfile) =
          rows) ∧
      (∀ e, get_pack_files fs mf.id_modfile mf.hash_md5 =
          some (Except.error e) →
        ((db'.pack_files.filter fun r => r.id_modfile == mf.id_modfile) =
          (db.pack_files.filter fun r => r.id_modfile == mf.id_modfile)) ∧
        (mf.id_modfile, e) ∈ reports) := by
  rcases List.append_of_mem hmf with ⟨pre, post, hsplit⟩
  have hu' := hu
  rw [hsplit, List.map_append, List.map_cons] at hu'
  rcases List.nodup_append.mp hu' with ⟨hnpre, hncons, hdisj⟩
  have hpre : ∀ x ∈ pre, x.id_modfile ≠ mf.id_modfile := by
    intro x hx heq
    exact hdisj (heq ▸ List.mem_map_of_mem _ hx)
      (List.mem_cons_self _ _)
  have hpost : ∀ x ∈ post, x.id_modfile ≠ mf.id_modfile := by
    intro x hx heq
    rcases List.nodup_cons.mp hncons with ⟨hnotin, _⟩
    exact hnotin (heq ▸ List.mem_map_of_mem _ hx)
  rcases rebuild_go_total fs pre db.pack_files [] with ⟨pr1, hpr1⟩
  rcases rebuild_go_frame fs pre mf.id_modfile hpre _ _ _ hpr1 with
    ⟨hf1, t1, ht1⟩
  rcases get_pack_files_some fs mf.id_modfile mf.hash_md5 with ⟨res, hres⟩
  have hrun : ∀ pf₂ rep₂, rebuild_go fs (mf :: post) pr1.1 pr1.2 =
      rebuild_go fs post pf₂ rep₂ →
      ∃ pr2, rebuild_go fs post pf₂ rep₂ = some pr2 ∧
        update_pack_files_local fs db = some
          ({ db with pack_files := pr2.1 }, pr2.2) := by
    intro pf₂ rep₂ hstep
    rcases rebuild_go_total fs post pf₂ rep₂ with ⟨pr2, hpr2⟩
    refine ⟨pr2, hpr2, ?_⟩
    unfold update_pack_files_local
    rw [hsplit]
    have happ : rebuild_go fs (pre ++ mf :: post) db.pack_files [] =
        rebuild_go fs (mf :: post) pr1.1 pr1.2 := by
      rw [rebuild_go_append, hpr1]
    rw [happ, hstep, hpr2]
    rfl
  cases res with
  | ok rows =>
    have hstep : rebuild_go fs (mf :: post) pr1.1 pr1.2 =
        rebuild_go fs post
          ((pr1.1.filter fun r => r.id_modfile != mf.id_modfile) ++ rows)
          pr1.2 := by
      simp only [rebuild_go, hres]
    rcases hrun _ _ hstep with ⟨pr2, hpr2, hupd⟩
    rcases rebuild_go_frame fs post mf.id_modfile hpost _ _ _ hpr2 with
      ⟨hf2, t2, ht2⟩
    refine ⟨{ db with pack_files := pr2.1 }, pr2.2, hupd, ?_, ?_⟩
    · intro rows' hrows'
      rw [hres] at hrows'
      injection hrows' with h'
      injection h' with h''
      subst h''
      show (pr2.1.filter fun r => r.id_modfile == mf.id_modfile) = rows
      rw [hf2, List.filter_append, filter_eq_after_ne,
        filter_rows_own_id rows mf.id_modfile
          (get_pack_files_ok_ids fs mf.id_modfile mf.hash_md5 rows hres),
        List.nil_append]
    · intro e he
      rw [hres] at he
      injection he with h'
      exact Except.noConfusion h'
  | error e0 =>
    have hstep : rebuild_go fs (mf :: post) pr1.1 pr1.2 =
        rebuild_go fs post pr1.1 (pr1.2 ++ [(mf.id_modfile, e0)]) := by
      simp only [rebuild_go, hres]
    rcases hrun _ _ hstep with ⟨pr2, hpr2, hupd⟩
    rcases rebuild_go_frame fs post mf.id_modfile hpost _ _ _ hpr2 with
      ⟨hf2, t2, ht2⟩
    refine ⟨{ db with pack_files := pr2.1 }, pr2.2, hupd, ?_, ?_⟩
    · intro rows' hrows'
      rw [hres] at hrows'
      injection hrows' with h'
      exact Except.noConfusion h'
    · intro e he
      rw [hres] at he
      injection he with h'
      injection h' with h''
      subst h''
      constructor
      · show (pr2.1.filter fun r => r.id_modfile == mf.id_modfile) = _
        rw [hf2, hf1]
      · rw [ht2, ht1]
        simp

/-- Witness for C8: a store with a missing archive (file 5) and a good
one (file 6); the theorem is instantiated at the failing file. -/
theorem rebuild_all_isolates_failures_witness :
    ∃ db' reports, update_pack_files_local
        [("g", [{ name := "p.pak", is_file := true,
                  pak := some { mount_point := some "../../../A",
                                records := ["b.c"] } }])]
        { mods := [],
          modfiles := [{ id_modfile := 5, id_mod := 1, date_added := 0,
                         hash_md5 := "m", filename := "f", version := none,
                         changelog := none },
                       { id_modfile := 6, id_mod := 2, date_added := 0,
                         hash_md5 := "g", filename := "f2", version := none,
                         changelog := none }],
          pack_files := [{ id_modfile := 5, path := "X.y",
                           path_no_extension := "X.", extension := some "y",
                           name := some "X" }] } = some (db', reports) ∧
      (∀ rows, get_pack_files
          [("g", [{ name := "p.pak", is_file := true,
                    pak := some { mount_point := some "../../../A",
                                  records := ["b.c"] } }])] 5 "m" =
          some (Except.ok rows) →
        (db'.pack_files.filter fun r => r.id_modfile == 5) = rows) ∧
      (∀ e, get_pack_files
          [("g", [{ name := "p.pak", is_file := true,
                    pak := some { mount_point := some "../../../A",
                                  records := ["b.c"] } }])] 5 "m" =
          some (Except.error e) →
        ((db'.pack_files.filter fun r => r.id_modfile == 5) =
          [{ id_modfile := 5, path := "X.y", path_no_extension := "X.",
             extension := some "y", name := some "X" }].filter
            fun r => r.id_modfile == 5) ∧
        (5, e) ∈ reports) :=
  rebuild_all_isolates_failures
    [("g", [{ name := "p.pak", is_file := true,
              pak := some { mount_point := some "../../../A",
                            records := ["b.c"] } }])]
    { mods := [],
      modfiles := [{ id_modfile := 5, id_mod := 1, date_added := 0,
                     hash_md5 := "m", filename := "f", version := none,
                     changelog := none },
                   { id_modfile := 6, id_mod := 2, date_added := 0,
                     hash_md5 := "g", filename := "f2", version := none,
                     changelog := none }],
      pack_files := [{ id_modfile := 5, path := "X.y",
                       path_no_extension := "X.", extension := some "y",
                       name := some "X" }] }
    (by decide)
    { id_modfile := 5, id_mod := 1, date_added := 0, hash_md5 := "m",
      filename := "f", version := none, changelog := none }
    (by decide)

end DrgIndex
